import Mathlib

/-
Verification of fix_ids.py, a batch text rewriter that patches two code
idioms (parsing a route id from request path parameters) across the files
of a routes directory.

The script applies two substitution passes to each file content:
  pass 1: re.sub(r"const \{ id \} = req\.params;", replacement1, content)
  pass 2: re.sub(r"const (\w+Id) = req\.params\.id;", replacement2, content)
and then writes the file back only when the content changed.

Strings are modelled as List Char.  Both regular expressions are simple
enough to admit an exact operational model:
  - pattern 1 is fully escaped, hence a literal string match;
  - pattern 2 is a literal "const ", a greedy group (\w+Id), and a literal
    " = req.params.id;".  Because the character after the group in the
    pattern is a space (not a word character), the group of a successful
    match is exactly the maximal run of word characters following
    "const ", and that run must end in "Id", have length at least 3, and
    be followed by the literal tail.
re.sub replaces non-overlapping occurrences left to right and resumes
scanning after each replaced region; `scan` below implements exactly that.
Word characters are modelled at ASCII granularity (letters, digits,
underscore); the Python class also admits further Unicode word
characters, which no claim of the specification exercises.
-/

/-- ASCII word character: the character class `\w` of the two regular
expressions in fix_ids.py restricted to ASCII (letters, digits and
underscore). -/
def isWordChar (c : Char) : Bool := c.isAlphanum || c == '_'

/-- The literal text matched by pattern 1, `r"const \{ id \} = req\.params;"`:
every metacharacter in that regex is escaped, so it matches exactly this
string. -/
def pattern1 : List Char := "const \x7b id \x7d = req.params;".data

/-- The replacement text of rule 1 (the triple-quoted `replacement1` string
of fix_ids.py; it contains no backslash, so re.sub inserts it verbatim). -/
def replacement1 : List Char :=
  "const id = parseInt(req.params.id);\n    if (isNaN(id)) \x7b\n      return res.status(400).json(\x7b success: false, error: \x27Invalid ID\x27 \x7d);\n    \x7d".data

/-- The literal head of pattern 2: `const ` (with one trailing space). -/
def constSp : List Char := "const ".data

/-- The part of the rule 2 replacement between the two occurrences of the
captured variable name, read off the f-string in fix_ids.py. -/
def mid2 : List Char := " = parseInt(req.params.id);\n    if (isNaN(".data

/-- The part of the rule 2 replacement after the second occurrence of the
captured variable name, read off the f-string in fix_ids.py (`\x7b\x7b` and
`\x7d\x7d` in the f-string denote literal braces). -/
def post2 : List Char :=
  ")) \x7b\n      return res.status(400).json(\x7b success: false, error: \x27Invalid ID\x27 \x7d);\n    \x7d".data

/-- The literal tail of pattern 2: ` = req\.params\.id;` with its escapes
removed. -/
def tail2 : List Char := " = req.params.id;".data

/-- The `replacement2` function of fix_ids.py: given the captured group
`var_name`, build the replacement text from the f-string. -/
def replacement2 (v : List Char) : List Char :=
  constSp ++ v ++ mid2 ++ v ++ post2

/-- Whether a string ends with the literal `Id`. -/
def endsId (v : List Char) : Bool := "Id".data.isSuffixOf v

/-- Matching pattern 2 `const (\w+Id) = req\.params\.id;` at the start of
`s`, returning the captured group.  The greedy `\w+` together with the
mandatory space after the group forces the group of any successful match
to be the maximal word-character run after `const `; the run must consist
of a nonempty `\w+` part followed by `Id` (hence: length at least 3 and
suffix `Id`) and must be followed by the literal tail. -/
def match2 (s : List Char) : Option (List Char) :=
  if constSp.isPrefixOf s then
    let t := s.drop constSp.length
    let v := t.takeWhile isWordChar
    if 3 ≤ v.length ∧ endsId v = true ∧ tail2.isPrefixOf (t.dropWhile isWordChar) = true
    then some v
    else none
  else none

/-- Rule 1 as a matcher: if pattern 1 matches at the start of `s`, return
the replacement text and the number of additional characters consumed
beyond the first. -/
def matcher1 (s : List Char) : Option (List Char × Nat) :=
  if pattern1.isPrefixOf s then some (replacement1, pattern1.length - 1) else none

/-- Rule 2 as a matcher: if pattern 2 matches at the start of `s`, return
the replacement text built from the captured group and the number of
additional characters consumed beyond the first. -/
def matcher2 (s : List Char) : Option (List Char × Nat) :=
  match match2 s with
  | some v => some (replacement2 v, constSp.length + v.length + tail2.length - 1)
  | none => none

/-- One re.sub pass: scan the input left to right; at each position, if the
matcher fires, emit its replacement and resume after the matched region
(re.sub replaces non-overlapping matches and never rescans replacement
text); otherwise keep the character and move one position right.  Both
matchers only fire on nonempty input and always consume at least one
character.  The recursion is driven by a fuel argument so that the
function is structurally recursive and computable by the kernel; since
every step consumes at least one character, fuel equal to the input
length is always enough, and the intended recursion equations are proved
below (scan_cons_some and scan_cons_none). -/
def scanFuel (m : List Char → Option (List Char × Nat)) :
    Nat → List Char → List Char
  | _, [] => []
  | 0, _ :: _ => []
  | fuel + 1, c :: cs =>
    match m (c :: cs) with
    | some (r, k) => r ++ scanFuel m fuel (cs.drop k)
    | none => c :: scanFuel m fuel cs

def scan (m : List Char → Option (List Char × Nat)) (s : List Char) : List Char :=
  scanFuel m s.length s

/-- Position of the first match of `m` in `s`, together with what the
matcher returns there. -/
def firstMatch (m : List Char → Option (List Char × Nat)) :
    List Char → Option (Nat × List Char × Nat)
  | [] => none
  | c :: cs =>
    match m (c :: cs) with
    | some (r, k) => some (0, r, k)
    | none => (firstMatch m cs).map (fun x => (x.1 + 1, x.2))

/-- The function `fix_id_parsing` of fix_ids.py: apply the rule 1 pass,
then the rule 2 pass, to the content. -/
def fix_id_parsing (content : List Char) : List Char :=
  let content := scan matcher1 content
  let content := scan matcher2 content
  content

/-- Rule 1 on its own, as described by the specification: replace every
occurrence of the destructuring idiom. -/
def rule1 : List Char → List Char := scan matcher1

/-- Rule 2 on its own, as described by the specification: replace every
suffixed-identifier assignment from the path parameter. -/
def rule2 : List Char → List Char := scan matcher2

/-- The exact text consumed by a rule 2 match with captured group `v`. -/
def pattern2Match (v : List Char) : List Char := constSp ++ v ++ tail2

/-- The shape of a group captured by pattern 2: word characters only,
ending in `Id`, of length at least 3 (a nonempty `\w+` part before `Id`). -/
def GoodVar (v : List Char) : Prop :=
  v.all isWordChar = true ∧ endsId v = true ∧ 3 ≤ v.length

instance (v : List Char) : Decidable (GoodVar v) := by
  unfold GoodVar; infer_instance

/-- The shape of a variable name that pattern 2 does not capture: a
nonempty word-character name that is not of the `\w+Id` shape, that is,
that does not end in the literal `Id` preceded by at least one further
word character (equivalently: not both suffix `Id` and length at least
three).  The plain lowercase `id` is such a name. -/
def BadVar (v : List Char) : Prop :=
  v ≠ [] ∧ v.all isWordChar = true ∧ ¬ (endsId v = true ∧ 3 ≤ v.length)

instance (v : List Char) : Decidable (BadVar v) := by
  unfold BadVar; infer_instance

/-- Sufficient syntactic check that pattern 1 cannot match at the start of
`t ++ r` for any continuation `r`: `t` neither extends pattern 1 nor is a
prefix of it. -/
def noStart1 (t : List Char) : Bool :=
  !(t.isPrefixOf pattern1) && !(pattern1.isPrefixOf t)

/-- Sufficient syntactic check that pattern 2 cannot match at the start of
`t ++ r` for any continuation `r`: the failure must be forced inside `t`
itself. -/
def noStart2 (t : List Char) : Bool :=
  if t.isPrefixOf constSp then false
  else if constSp.isPrefixOf t then
    let t' := t.drop constSp.length
    if t'.all isWordChar then false
    else
      let v := t'.takeWhile isWordChar
      if 3 ≤ v.length ∧ endsId v = true then
        let t'' := t'.dropWhile isWordChar
        !(t''.isPrefixOf tail2) && !(tail2.isPrefixOf t'')
      else true
  else true

/-- Both checks at once. -/
def noStartBoth (t : List Char) : Bool := noStart1 t && noStart2 t

/- ---------------------------------------------------------------------
The driver loop of fix_ids.py (lines 29 to 45), over a model file system:
an association list from path to content.  glob.glob("src/routes/*.ts")
lists the existing files directly under src/routes whose (non-hidden)
name ends in ".ts"; the loop reads each file, transforms the content,
and writes the file back in place only when the content changed.
--------------------------------------------------------------------- -/

/-- Read a file from the model file system. -/
def readFile (fs : List (String × List Char)) (p : String) : Option (List Char) :=
  (fs.find? (fun e => e.1 == p)).map (fun e => e.2)

/-- Overwrite a file in place in the model file system: entries for other
paths are untouched, and no entry is created or removed. -/
def writeFile (fs : List (String × List Char)) (p : String) (c : List Char) :
    List (String × List Char) :=
  fs.map (fun e => if e.1 == p then (e.1, c) else e)

/-- Whether a path is produced by glob.glob("src/routes/*.ts"): directly
under src/routes (the `*` of glob never matches a path separator), not a
hidden name (glob's `*` does not match a leading dot), and ending in
".ts". -/
def isRouteTs (p : String) : Bool :=
  "src/routes/".data.isPrefixOf p.data &&
  (let name := p.data.drop 11
   name.head? != some '.' && !(name.contains '/') && ".ts".data.isSuffixOf name)

/-- The file list discovered by the glob call, drawn from the model file
system. -/
def globRoutes (fs : List (String × List Char)) : List String :=
  (fs.filter (fun e => isRouteTs e.1)).map (fun e => e.1)

/-- One iteration of the driver loop: read the file, transform, and write
back only if the content changed.  The state carries the file system and
the log of paths written so far. -/
def processFile (st : List (String × List Char) × List String) (p : String) :
    List (String × List Char) × List String :=
  match readFile st.1 p with
  | none => st
  | some content =>
      let fixed := fix_id_parsing content
      if fixed ≠ content then (writeFile st.1 p fixed, st.2 ++ [p]) else st

/-- The whole driver run: process every discovered route file in order,
returning the final file system and the list of paths written. -/
def runScript (fs : List (String × List Char)) :
    List (String × List Char) × List String :=
  (globRoutes fs).foldl processFile (fs, [])

/- ---------------------------------------------------------------------
An exception-aware model of fix_id_parsing, for the claim that the
function never raises.  The only failure point of the Python code inside
fix_id_parsing is the replacement callback of pass 2, whose
match.group(1) lookup would raise if the pattern had no first group; the
model surfaces that lookup as an access into the list of captured
groups.
--------------------------------------------------------------------- -/

/-- The groups list a successful pattern 2 match carries (the pattern has
exactly one capturing group). -/
def groups2 (s : List Char) : Option (List (List Char)) :=
  (match2 s).map (fun v => [v])

/-- The `replacement2` callback with the failure of `match.group(1)` made
explicit: error when the match has no first group. -/
def replacement2E (gs : List (List Char)) : Except String (List Char) :=
  match gs.get? 0 with
  | some v => Except.ok (replacement2 v)
  | none => Except.error "no such group"

/-- Rule 1 as an exception-aware matcher (its replacement is a fixed
string containing no backslash escapes, so nothing can fail). -/
def matcher1E (s : List Char) : Except String (Option (List Char × Nat)) :=
  Except.ok (matcher1 s)

/-- Rule 2 as an exception-aware matcher: the callback is consulted on a
match, and its failure would propagate. -/
def matcher2E (s : List Char) : Except String (Option (List Char × Nat)) :=
  match groups2 s with
  | some gs =>
      match replacement2E gs with
      | Except.ok r =>
          Except.ok (some (r, constSp.length + (gs.headD []).length + tail2.length - 1))
      | Except.error e => Except.error e
  | none => Except.ok none

/-- The re.sub pass with exception propagation. -/
def scanE (m : List Char → Except String (Option (List Char × Nat))) :
    List Char → Except String (List Char)
  | [] => Except.ok []
  | c :: cs =>
    match m (c :: cs) with
    | Except.error e => Except.error e
    | Except.ok (some (r, k)) => (scanE m (cs.drop k)).map (fun w => r ++ w)
    | Except.ok none => (scanE m cs).map (fun w => c :: w)
termination_by s => s.length
decreasing_by
  all_goals (simp [List.length_drop]; try omega)

/-- fix_id_parsing with exception propagation: a failure in either pass
aborts the function. -/
def fix_id_parsingE (content : List Char) : Except String (List Char) :=
  match scanE matcher1E content with
  | Except.error e => Except.error e
  | Except.ok content =>
      match scanE matcher2E content with
      | Except.error e => Except.error e
      | Except.ok content => Except.ok content

/- ---------------------------------------------------------------------
Utility lemmas on prefixes, suffixes, infixes and takeWhile.
--------------------------------------------------------------------- -/

theorem head_eq_of_pref {p s : List Char} (h : p <+: s) (hne : p ≠ []) :
    p.head? = s.head? := by
  obtain ⟨t, rfl⟩ := h
  cases p with
  | nil => exact absurd rfl hne
  | cons a q => rfl

theorem headq_append {a : List Char} (b : List Char) (hne : a ≠ []) :
    (a ++ b).head? = a.head? := by
  cases a with
  | nil => exact absurd rfl hne
  | cons x q => rfl

theorem pref_append_cancel {a b c : List Char} :
    a ++ b <+: a ++ c ↔ b <+: c := by
  constructor
  · rintro ⟨t, ht⟩
    rw [List.append_assoc] at ht
    exact ⟨t, List.append_cancel_left ht⟩
  · rintro ⟨t, rfl⟩
    exact ⟨t, by rw [List.append_assoc]⟩

theorem pref_of_append_of_le {p u w : List Char} (h : p <+: u ++ w)
    (hl : p.length ≤ u.length) : p <+: u := by
  have h1 : p = (u ++ w).take p.length := List.prefix_iff_eq_take.mp h
  rw [List.take_append_eq_append_take] at h1
  have h0 : p.length - u.length = 0 := by omega
  rw [h0, List.take_zero, List.append_nil] at h1
  rw [h1]
  exact List.take_prefix p.length u

theorem append_left_pref_of_le {p u w : List Char} (h : p <+: u ++ w)
    (hl : u.length ≤ p.length) : u <+: p := by
  have h1 : p = (u ++ w).take p.length := List.prefix_iff_eq_take.mp h
  rw [List.take_append_eq_append_take] at h1
  have h2 : u.take p.length = u := List.take_of_length_le hl
  rw [h2] at h1
  exact ⟨_, h1.symm⟩

theorem pref_extend {p s : List Char} (w : List Char) (h : p <+: s) :
    p <+: s ++ w :=
  h.trans (List.prefix_append s w)

theorem suffix_append_cases {t x y : List Char} (h : t <:+ x ++ y) :
    t <:+ y ∨ ∃ x', x' <:+ x ∧ x' ≠ [] ∧ t = x' ++ y := by
  obtain ⟨p, hp⟩ := h
  rcases List.append_eq_append_iff.mp hp with ⟨a', ha1, ha2⟩ | ⟨c', hc1, hc2⟩
  · rcases eq_or_ne a' [] with rfl | hne
    · left
      simp only [List.nil_append] at ha2
      rw [ha2]
    · right
      exact ⟨a', ⟨p, ha1.symm⟩, hne, ha2⟩
  · left
    exact ⟨c', hc2.symm⟩

theorem infix_append_cases {p a b : List Char} (h : p <:+: a ++ b) :
    p <:+: a ∨ p <:+: b ∨
      ∃ s₁ s₂, p = s₁ ++ s₂ ∧ s₁ ≠ [] ∧ s₂ ≠ [] ∧ s₁ <:+ a ∧ s₂ <+: b := by
  obtain ⟨u, v, huv⟩ := h
  rcases List.append_eq_append_iff.mp huv with ⟨a', ha1, ha2⟩ | ⟨c', hc1, hc2⟩
  · left
    exact ⟨u, a', by rw [ha1, List.append_assoc]⟩
  · rcases List.append_eq_append_iff.mp hc1 with ⟨a'', g1, g2⟩ | ⟨u'', g1, g2⟩
    · rcases eq_or_ne a'' [] with rfl | hne1
      · right; left
        simp only [List.nil_append] at g2
        have hcb : c' <+: b := ⟨v, hc2.symm⟩
        rw [g2]
        exact hcb.isInfix
      · rcases eq_or_ne c' [] with rfl | hne2
        · left
          rw [List.append_nil] at g2
          have haa : a'' <:+ a := ⟨u, g1.symm⟩
          rw [g2]
          exact haa.isInfix
        · right; right
          exact ⟨a'', c', g2, hne1, hne2, ⟨u, g1.symm⟩, ⟨v, hc2.symm⟩⟩
    · right; left
      exact ⟨u'', v, by rw [hc2, g2, List.append_assoc]⟩

theorem infix_of_take {p : List Char} {z : List Char} (j : Nat)
    (h : p <:+: z.take j) : p <:+: z :=
  h.trans ((List.take_prefix j z).isInfix)

theorem infix_of_drop {p : List Char} {z : List Char} (j : Nat)
    (h : p <:+: z.drop j) : p <:+: z :=
  h.trans ((List.drop_suffix j z).isInfix)

theorem infix_cons_of_infix {p t : List Char} (c : Char) (h : p <:+: t) :
    p <:+: c :: t :=
  h.trans ⟨[c], [], by simp⟩

theorem infix_append_left {p b : List Char} (a : List Char) (h : p <:+: b) :
    p <:+: a ++ b := by
  obtain ⟨u, v, huv⟩ := h
  exact ⟨a ++ u, v, by rw [← huv]; simp [List.append_assoc]⟩

theorem suffix_eq_drop {t s : List Char} (h : t <:+ s) :
    t = s.drop (s.length - t.length) :=
  List.suffix_iff_eq_drop.mp h

theorem suffix_of_suffix_le {a b c : List Char} (h1 : a <:+ c) (h2 : b <:+ c)
    (hl : a.length ≤ b.length) : a <:+ b := by
  obtain ⟨p, hp⟩ := h1
  obtain ⟨q, hq⟩ := h2
  have hrev : a.reverse <+: b.reverse := by
    have r1 : a.reverse <+: c.reverse := ⟨p.reverse, by rw [← List.reverse_append, hp]⟩
    have r2 : b.reverse <+: c.reverse := ⟨q.reverse, by rw [← List.reverse_append, hq]⟩
    exact List.prefix_of_prefix_length_le r1 r2 (by simpa using hl)
  obtain ⟨t, ht⟩ := hrev
  exact ⟨t.reverse, by
    have := congrArg List.reverse ht
    simpa using this⟩

/- ---------------------------------------------------------------------
takeWhile / dropWhile lemmas for the greedy word run of pattern 2.
--------------------------------------------------------------------- -/

theorem takeWhile_append_all {p : Char → Bool} {v : List Char} (w : List Char)
    (hv : v.all p = true) :
    (v ++ w).takeWhile p = v ++ w.takeWhile p := by
  induction v with
  | nil => simp
  | cons a q ih =>
      simp only [List.all_cons, Bool.and_eq_true] at hv
      simp [List.takeWhile_cons, hv.1, ih hv.2]

theorem dropWhile_append_all {p : Char → Bool} {v : List Char} (w : List Char)
    (hv : v.all p = true) :
    (v ++ w).dropWhile p = w.dropWhile p := by
  induction v with
  | nil => simp
  | cons a q ih =>
      simp only [List.all_cons, Bool.and_eq_true] at hv
      simp [List.dropWhile_cons, hv.1, ih hv.2]

theorem takeWhile_append_stop {p : Char → Bool} {t : List Char} (w : List Char)
    (ht : t.all p = false) :
    (t ++ w).takeWhile p = t.takeWhile p := by
  induction t with
  | nil => simp at ht
  | cons a q ih =>
      by_cases ha : p a = true
      · simp only [List.all_cons, ha, Bool.true_and] at ht
        simp [List.takeWhile_cons, ha, ih ht]
      · simp only [Bool.not_eq_true] at ha
        simp [List.takeWhile_cons, ha]

theorem dropWhile_append_stop {p : Char → Bool} {t : List Char} (w : List Char)
    (ht : t.all p = false) :
    (t ++ w).dropWhile p = t.dropWhile p ++ w := by
  induction t with
  | nil => simp at ht
  | cons a q ih =>
      by_cases ha : p a = true
      · simp only [List.all_cons, ha, Bool.true_and] at ht
        simp [List.dropWhile_cons, ha, ih ht]
      · simp only [Bool.not_eq_true] at ha
        simp [List.dropWhile_cons, ha]

theorem dropWhile_ne_nil_of_not_all {p : Char → Bool} {t : List Char}
    (ht : t.all p = false) : t.dropWhile p ≠ [] := by
  intro h
  rw [List.dropWhile_eq_nil_iff] at h
  have hall : t.all p = true := List.all_eq_true.mpr h
  rw [ht] at hall
  exact Bool.false_ne_true hall

theorem dropWhile_head_false {p : Char → Bool} {l : List Char} {e : Char}
    {t : List Char} (h : l.dropWhile p = e :: t) : p e = false := by
  induction l with
  | nil => simp at h
  | cons a q ih =>
      rw [List.dropWhile_cons] at h
      by_cases ha : p a = true
      · rw [if_pos ha] at h
        exact ih h
      · rw [if_neg ha] at h
        cases h
        simpa using ha

theorem all_takeWhile_true {p : Char → Bool} (l : List Char) :
    (l.takeWhile p).all p = true := by
  induction l with
  | nil => simp
  | cons a q ih =>
      by_cases ha : p a = true
      · simp [List.takeWhile_cons, ha, ih]
      · simp [List.takeWhile_cons, ha]

theorem takeWhile_constSp (q : List Char) :
    (constSp ++ q).takeWhile isWordChar = ['c', 'o', 'n', 's', 't'] := by
  have hc : constSp = ['c', 'o', 'n', 's', 't', ' '] := by decide
  rw [hc]
  simp only [List.cons_append, List.nil_append, List.takeWhile_cons]
  rw [if_pos (by decide : isWordChar 'c' = true),
      if_pos (by decide : isWordChar 'o' = true),
      if_pos (by decide : isWordChar 'n' = true),
      if_pos (by decide : isWordChar 's' = true),
      if_pos (by decide : isWordChar 't' = true),
      if_neg (by decide : ¬ isWordChar ' ' = true)]

/- ---------------------------------------------------------------------
Facts about word runs ending in `Id` versus the literal `const `.
--------------------------------------------------------------------- -/

theorem eq_append_drop_of_pref {p s : List Char} (h : p <+: s) :
    s = p ++ s.drop p.length := by
  obtain ⟨t, rfl⟩ := h
  rw [List.drop_left]

theorem endsId_suffix_d {v : List Char} (h : endsId v = true) : ['d'] <:+ v := by
  unfold endsId at h
  have h2 : "Id".data <:+ v := List.isSuffixOf_iff_suffix.mp h
  have h1 : ['d'] <:+ "Id".data := by decide
  exact h1.trans h2

theorem endsId_suffix_transfer {v t : List Char} (hv : endsId v = true)
    (ht : t <:+ v) (hne : t ≠ []) : ['d'] <:+ t := by
  refine suffix_of_suffix_le (endsId_suffix_d hv) ht ?_
  cases t with
  | nil => exact absurd rfl hne
  | cons a q => simp

theorem mem_of_suffix_d {w : List Char} (h : ['d'] <:+ w) : 'd' ∈ w := by
  obtain ⟨p, rfl⟩ := h
  simp

theorem ne_nil_of_suffix_d {w : List Char} (h : ['d'] <:+ w) : w ≠ [] := by
  intro hw
  subst hw
  have := h.length_le
  simp at this

theorem not_constSp_pref_of_wordy {w : List Char} (r : List Char)
    (hw : w.all isWordChar = true) (hd : ['d'] <:+ w) :
    ¬ constSp <+: w ++ r := by
  intro h
  by_cases h6 : 6 ≤ w.length
  · have h1 : constSp = (w ++ r).take constSp.length := List.prefix_iff_eq_take.mp h
    have hlen : constSp.length = 6 := by decide
    rw [hlen, List.take_append_eq_append_take] at h1
    have h0 : 6 - w.length = 0 := by omega
    rw [h0, List.take_zero, List.append_nil] at h1
    have hsp : ' ' ∈ constSp := by decide
    rw [h1] at hsp
    have hw' : ' ' ∈ w := List.take_subset 6 w hsp
    exact absurd (List.all_eq_true.mp hw _ hw') (by decide)
  · have h1 : w <+: constSp := by
      refine List.prefix_of_prefix_length_le (List.prefix_append w r) h ?_
      have : constSp.length = 6 := by decide
      omega
    have hd' : 'd' ∈ constSp := h1.subset (mem_of_suffix_d hd)
    exact absurd hd' (by decide)

theorem not_wordy_pref_of_constSp {w : List Char} (y : List Char)
    (hw : w.all isWordChar = true) (hd : ['d'] <:+ w) :
    ¬ w <+: constSp ++ y := by
  intro h
  by_cases h6 : w.length ≤ 6
  · have h1 : w = (constSp ++ y).take w.length := List.prefix_iff_eq_take.mp h
    rw [List.take_append_eq_append_take] at h1
    have h0 : w.length - constSp.length = 0 := by
      have : constSp.length = 6 := by decide
      omega
    rw [h0, List.take_zero, List.append_nil] at h1
    have hd' : 'd' ∈ w := mem_of_suffix_d hd
    rw [h1] at hd'
    exact absurd (List.take_subset _ _ hd') (by decide)
  · have h1 : constSp <+: w := by
      refine List.prefix_of_prefix_length_le (List.prefix_append constSp y) h ?_
      have : constSp.length = 6 := by decide
      omega
    have hsp : ' ' ∈ w := h1.subset (by decide)
    exact absurd (List.all_eq_true.mp hw _ hsp) (by decide)

theorem not_pref_of_wordy {p w : List Char} (r : List Char)
    (hp : constSp <+: p) (hw : w.all isWordChar = true) (hd : ['d'] <:+ w) :
    ¬ p <+: w ++ r :=
  fun h => not_constSp_pref_of_wordy r hw hd (hp.trans h)

/- ---------------------------------------------------------------------
Bridging lemmas for the two matchers.
--------------------------------------------------------------------- -/

theorem matcher1_eq_none {s : List Char} : matcher1 s = none ↔ ¬ pattern1 <+: s := by
  rw [← List.isPrefixOf_iff_prefix]
  unfold matcher1
  by_cases h : pattern1.isPrefixOf s
  · simp [h]
  · simp [h]

theorem matcher1_nil : matcher1 [] = none := rfl

theorem matcher2_nil : matcher2 [] = none := rfl

theorem matcher2_eq_none {s : List Char} : matcher2 s = none ↔ match2 s = none := by
  unfold matcher2
  cases h : match2 s <;> simp

theorem matcher1_eq_some {s r : List Char} {k : Nat}
    (h : matcher1 s = some (r, k)) :
    r = replacement1 ∧ k = 25 ∧ pattern1 <+: s := by
  unfold matcher1 at h
  by_cases hp : pattern1.isPrefixOf s
  · rw [if_pos hp] at h
    have hlen : pattern1.length = 26 := by decide
    rw [hlen] at h
    injection h with h'
    have h1 : replacement1 = r := congrArg Prod.fst h'
    have h2 : (26 - 1 : Nat) = k := congrArg Prod.snd h'
    exact ⟨h1.symm, by omega, List.isPrefixOf_iff_prefix.mp hp⟩
  · rw [if_neg hp] at h
    exact Option.noConfusion h

theorem matcher1_at (b : List Char) :
    matcher1 (pattern1 ++ b) = some (replacement1, 25) := by
  unfold matcher1
  rw [if_pos (List.isPrefixOf_iff_prefix.mpr (List.prefix_append _ _))]
  have hlen : pattern1.length = 26 := by decide
  rw [hlen]

theorem pattern2Match_length (v : List Char) :
    (pattern2Match v).length = 23 + v.length := by
  have h1 : constSp.length = 6 := by decide
  have h2 : tail2.length = 17 := by decide
  simp [pattern2Match, h1, h2]
  omega

theorem match2_unfold (s : List Char) :
    match2 s =
      if constSp.isPrefixOf s then
        (if 3 ≤ ((s.drop constSp.length).takeWhile isWordChar).length ∧
            endsId ((s.drop constSp.length).takeWhile isWordChar) = true ∧
            tail2.isPrefixOf ((s.drop constSp.length).dropWhile isWordChar) = true
         then some ((s.drop constSp.length).takeWhile isWordChar)
         else none)
      else none := rfl

theorem match2_eq_some {s v : List Char} (h : match2 s = some v) :
    GoodVar v ∧ ∃ b, s = pattern2Match v ++ b := by
  rw [match2_unfold] at h
  by_cases hp : constSp.isPrefixOf s
  · rw [if_pos hp] at h
    by_cases hc : 3 ≤ ((s.drop constSp.length).takeWhile isWordChar).length ∧
        endsId ((s.drop constSp.length).takeWhile isWordChar) = true ∧
        tail2.isPrefixOf ((s.drop constSp.length).dropWhile isWordChar) = true
    · rw [if_pos hc] at h
      injection h with hv
      obtain ⟨hlen, hend, htail⟩ := hc
      subst hv
      refine ⟨⟨all_takeWhile_true _, hend, hlen⟩, ?_⟩
      have hs : s = constSp ++ s.drop constSp.length :=
        eq_append_drop_of_pref (List.isPrefixOf_iff_prefix.mp hp)
      set t := s.drop constSp.length with ht
      have ht2 : t = t.takeWhile isWordChar ++ t.dropWhile isWordChar :=
        (List.takeWhile_append_dropWhile _ _).symm
      have ht3 : t.dropWhile isWordChar =
          tail2 ++ (t.dropWhile isWordChar).drop tail2.length :=
        eq_append_drop_of_pref (List.isPrefixOf_iff_prefix.mp htail)
      refine ⟨(t.dropWhile isWordChar).drop tail2.length, ?_⟩
      calc s = constSp ++ t := hs
        _ = constSp ++ (t.takeWhile isWordChar ++ t.dropWhile isWordChar) := by
              rw [← ht2]
        _ = constSp ++ (t.takeWhile isWordChar ++
              (tail2 ++ (t.dropWhile isWordChar).drop tail2.length)) := by
              rw [← ht3]
        _ = pattern2Match (t.takeWhile isWordChar) ++
              (t.dropWhile isWordChar).drop tail2.length := by
              simp [pattern2Match, List.append_assoc]
    · rw [if_neg hc] at h
      exact Option.noConfusion h
  · rw [if_neg hp] at h
    exact Option.noConfusion h

theorem tail2_cons : tail2 = ' ' :: "= req.params.id;".data := by decide

theorem match2_at {v : List Char} (hv : GoodVar v) (b : List Char) :
    match2 (pattern2Match v ++ b) = some v := by
  obtain ⟨hall, hend, hlen⟩ := hv
  have hshape : pattern2Match v ++ b = constSp ++ (v ++ (tail2 ++ b)) := by
    simp [pattern2Match, List.append_assoc]
  rw [match2_unfold, hshape]
  rw [if_pos (List.isPrefixOf_iff_prefix.mpr (List.prefix_append _ _))]
  rw [List.drop_left]
  have hcons : tail2 ++ b = ' ' :: ("= req.params.id;".data ++ b) := by
    rw [tail2_cons]; rfl
  have htw : (v ++ (tail2 ++ b)).takeWhile isWordChar = v := by
    rw [takeWhile_append_all _ hall, hcons, List.takeWhile_cons,
        if_neg (by decide : ¬ isWordChar ' ' = true), List.append_nil]
  have hdw : (v ++ (tail2 ++ b)).dropWhile isWordChar = tail2 ++ b := by
    rw [dropWhile_append_all _ hall, hcons, List.dropWhile_cons,
        if_neg (by decide : ¬ isWordChar ' ' = true), ← hcons]
  rw [htw, hdw]
  rw [if_pos ⟨hlen, hend,
    List.isPrefixOf_iff_prefix.mpr (List.prefix_append _ _)⟩]

theorem matcher2_eq_some {s r : List Char} {k : Nat}
    (h : matcher2 s = some (r, k)) :
    ∃ v, match2 s = some v ∧ r = replacement2 v ∧ k = 22 + v.length ∧
      GoodVar v ∧ ∃ b, s = pattern2Match v ++ b := by
  unfold matcher2 at h
  cases hm : match2 s with
  | none => rw [hm] at h; exact Option.noConfusion h
  | some v =>
      rw [hm] at h
      injection h with h'
      have h1 : replacement2 v = r := congrArg Prod.fst h'
      have h2 : constSp.length + v.length + tail2.length - 1 = k :=
        congrArg Prod.snd h'
      have hc1 : constSp.length = 6 := by decide
      have hc2 : tail2.length = 17 := by decide
      obtain ⟨hgv, b, hb⟩ := match2_eq_some hm
      exact ⟨v, rfl, h1.symm, by omega, hgv, b, hb⟩

theorem matcher2_at {v : List Char} (hv : GoodVar v) (b : List Char) :
    matcher2 (pattern2Match v ++ b) = some (replacement2 v, 22 + v.length) := by
  unfold matcher2
  rw [match2_at hv b]
  dsimp only
  have harith : constSp.length + v.length + tail2.length - 1 = 22 + v.length := by
    have hc1 : constSp.length = 6 := by decide
    have hc2 : tail2.length = 17 := by decide
    omega
  rw [harith]

/- ---------------------------------------------------------------------
Structure of the scanning pass.
--------------------------------------------------------------------- -/

theorem scanFuel_cons_some {m : List Char → Option (List Char × Nat)} {c : Char}
    {cs r : List Char} {k fuel : Nat} (h : m (c :: cs) = some (r, k)) :
    scanFuel m (fuel + 1) (c :: cs) = r ++ scanFuel m fuel (cs.drop k) := by
  rw [scanFuel, h]

theorem scanFuel_cons_none {m : List Char → Option (List Char × Nat)} {c : Char}
    {cs : List Char} {fuel : Nat} (h : m (c :: cs) = none) :
    scanFuel m (fuel + 1) (c :: cs) = c :: scanFuel m fuel cs := by
  rw [scanFuel, h]

theorem scanFuel_congr (m : List Char → Option (List Char × Nat)) :
    ∀ f₁ f₂ (s : List Char), s.length ≤ f₁ → s.length ≤ f₂ →
      scanFuel m f₁ s = scanFuel m f₂ s := by
  intro f₁
  induction f₁ with
  | zero =>
      intro f₂ s h1 h2
      have hs : s = [] := List.length_eq_zero.mp (by omega)
      subst hs
      cases f₂ <;> rfl
  | succ n ih =>
      intro f₂ s h1 h2
      cases s with
      | nil => cases f₂ <;> rfl
      | cons c cs =>
          cases f₂ with
          | zero => simp at h2
          | succ n₂ =>
              simp only [List.length_cons] at h1 h2
              cases hm : m (c :: cs) with
              | some p =>
                  obtain ⟨r, k⟩ := p
                  rw [scanFuel_cons_some hm, scanFuel_cons_some hm]
                  congr 1
                  refine ih n₂ (cs.drop k) ?_ ?_ <;>
                    (rw [List.length_drop]; omega)
              | none =>
                  rw [scanFuel_cons_none hm, scanFuel_cons_none hm]
                  congr 1
                  exact ih n₂ cs (by omega) (by omega)

theorem scan_nil (m : List Char → Option (List Char × Nat)) : scan m [] = [] :=
  rfl

theorem scan_cons_some {m : List Char → Option (List Char × Nat)} {c : Char}
    {cs r : List Char} {k : Nat} (h : m (c :: cs) = some (r, k)) :
    scan m (c :: cs) = r ++ scan m (cs.drop k) := by
  show scanFuel m (c :: cs).length (c :: cs) =
    r ++ scanFuel m (cs.drop k).length (cs.drop k)
  rw [List.length_cons, scanFuel_cons_some h]
  congr 1
  refine scanFuel_congr m _ _ _ ?_ le_rfl
  rw [List.length_drop]
  omega

theorem scan_cons_none {m : List Char → Option (List Char × Nat)} {c : Char}
    {cs : List Char} (h : m (c :: cs) = none) :
    scan m (c :: cs) = c :: scan m cs := by
  show scanFuel m (c :: cs).length (c :: cs) = c :: scanFuel m cs.length cs
  rw [List.length_cons, scanFuel_cons_none h]

theorem scan_eq_of_some {m : List Char → Option (List Char × Nat)}
    {z r : List Char} {k : Nat} (h : m z = some (r, k)) (hne : z ≠ []) :
    scan m z = r ++ scan m (z.drop (k + 1)) := by
  cases z with
  | nil => exact absurd rfl hne
  | cons c cs => rw [scan_cons_some h, List.drop_succ_cons]

theorem firstMatch_cons_some {m : List Char → Option (List Char × Nat)}
    {c : Char} {cs r : List Char} {k : Nat} (h : m (c :: cs) = some (r, k)) :
    firstMatch m (c :: cs) = some (0, r, k) := by
  rw [firstMatch, h]

theorem firstMatch_cons_none {m : List Char → Option (List Char × Nat)}
    {c : Char} {cs : List Char} (h : m (c :: cs) = none) :
    firstMatch m (c :: cs) = (firstMatch m cs).map (fun x => (x.1 + 1, x.2)) := by
  rw [firstMatch, h]

theorem firstMatch_none_spec {m : List Char → Option (List Char × Nat)}
    {s : List Char} (h : firstMatch m s = none) :
    ∀ i, i < s.length → m (s.drop i) = none := by
  induction s with
  | nil => intro i hi; simp at hi
  | cons c cs ih =>
      intro i hi
      cases hm : m (c :: cs) with
      | some x =>
          obtain ⟨r, k⟩ := x
          rw [firstMatch_cons_some hm] at h
          exact Option.noConfusion h
      | none =>
          rw [firstMatch_cons_none hm] at h
          have hcs : firstMatch m cs = none := by
            cases hf : firstMatch m cs with
            | none => rfl
            | some y => rw [hf] at h; exact Option.noConfusion h
          cases i with
          | zero => exact hm
          | succ i' =>
              rw [List.drop_succ_cons]
              exact ih hcs i' (by simpa using hi)

theorem firstMatch_some_spec {m : List Char → Option (List Char × Nat)}
    {s : List Char} {j k : Nat} {r : List Char}
    (h : firstMatch m s = some (j, r, k)) :
    j < s.length ∧ m (s.drop j) = some (r, k) ∧ ∀ i, i < j → m (s.drop i) = none := by
  induction s generalizing j with
  | nil => exact Option.noConfusion h
  | cons c cs ih =>
      cases hm : m (c :: cs) with
      | some x =>
          obtain ⟨r', k'⟩ := x
          rw [firstMatch_cons_some hm] at h
          injection h with h'
          have hj : 0 = j := congrArg Prod.fst h'
          have hrk : (r', k') = (r, k) := congrArg Prod.snd h'
          subst hj
          refine ⟨by simp, by rw [List.drop_zero, hm, hrk], ?_⟩
          intro i hi
          omega
      | none =>
          rw [firstMatch_cons_none hm] at h
          cases hf : firstMatch m cs with
          | none => rw [hf] at h; exact Option.noConfusion h
          | some y =>
              obtain ⟨j', r', k'⟩ := y
              rw [hf, Option.map_some'] at h
              injection h with h'
              have hj : j' + 1 = j := congrArg Prod.fst h'
              have hrk : (r', k') = (r, k) := congrArg Prod.snd h'
              have hr : r' = r := congrArg Prod.fst hrk
              have hk : k' = k := congrArg Prod.snd hrk
              subst hj hr hk
              obtain ⟨ih1, ih2, ih3⟩ := ih hf
              refine ⟨by simpa using Nat.succ_lt_succ ih1, by
                rw [List.drop_succ_cons]; exact ih2, ?_⟩
              intro i hi
              cases i with
              | zero => exact hm
              | succ i' =>
                  rw [List.drop_succ_cons]
                  exact ih3 i' (by omega)

theorem scan_of_firstMatch_none {m : List Char → Option (List Char × Nat)}
    {s : List Char} (h : firstMatch m s = none) : scan m s = s := by
  induction s with
  | nil => exact scan_nil m
  | cons c cs ih =>
      cases hm : m (c :: cs) with
      | some x =>
          obtain ⟨r, k⟩ := x
          rw [firstMatch_cons_some hm] at h
          exact Option.noConfusion h
      | none =>
          rw [firstMatch_cons_none hm] at h
          have hcs : firstMatch m cs = none := by
            cases hf : firstMatch m cs with
            | none => rfl
            | some y => rw [hf] at h; exact Option.noConfusion h
          rw [scan_cons_none hm, ih hcs]

theorem scan_of_firstMatch_some {m : List Char → Option (List Char × Nat)}
    {s : List Char} {j k : Nat} {r : List Char}
    (h : firstMatch m s = some (j, r, k)) :
    scan m s = s.take j ++ r ++ scan m (s.drop (j + k + 1)) := by
  induction s generalizing j with
  | nil => exact Option.noConfusion h
  | cons c cs ih =>
      cases hm : m (c :: cs) with
      | some x =>
          obtain ⟨r', k'⟩ := x
          rw [firstMatch_cons_some hm] at h
          injection h with h'
          have hj : 0 = j := congrArg Prod.fst h'
          have hrk : (r', k') = (r, k) := congrArg Prod.snd h'
          have hr : r' = r := congrArg Prod.fst hrk
          have hk : k' = k := congrArg Prod.snd hrk
          subst hj hr hk
          rw [scan_cons_some hm]
          simp
      | none =>
          rw [firstMatch_cons_none hm] at h
          cases hf : firstMatch m cs with
          | none => rw [hf] at h; exact Option.noConfusion h
          | some y =>
              obtain ⟨j', r', k'⟩ := y
              rw [hf, Option.map_some'] at h
              injection h with h'
              have hj : j' + 1 = j := congrArg Prod.fst h'
              have hrk : (r', k') = (r, k) := congrArg Prod.snd h'
              have hr : r' = r := congrArg Prod.fst hrk
              have hk : k' = k := congrArg Prod.snd hrk
              subst hj hr hk
              rw [scan_cons_none hm, ih hf]
              have harith : j' + 1 + k' + 1 = (j' + k' + 1) + 1 := by omega
              rw [harith, List.take_succ_cons, List.drop_succ_cons]
              simp

theorem scan_eq_self {m : List Char → Option (List Char × Nat)} {s : List Char}
    (h : ∀ i, i < s.length → m (s.drop i) = none) : scan m s = s := by
  induction s with
  | nil => exact scan_nil m
  | cons c cs ih =>
      have h0 : m (c :: cs) = none := h 0 (by simp)
      rw [scan_cons_none h0]
      congr 1
      apply ih
      intro i hi
      have := h (i + 1) (by simpa using Nat.succ_lt_succ hi)
      rw [List.drop_succ_cons] at this
      exact this

theorem scan_append_clean {m : List Char → Option (List Char × Nat)}
    {a : List Char} (b : List Char)
    (h : ∀ t, t ≠ [] → t <:+ a → ∀ r, m (t ++ r) = none) :
    scan m (a ++ b) = a ++ scan m b := by
  induction a with
  | nil => simp
  | cons c a' ih =>
      have h0 : m ((c :: a') ++ b) = none :=
        h (c :: a') (by simp) (List.suffix_refl _) b
      rw [List.cons_append] at h0 ⊢
      rw [scan_cons_none h0]
      rw [ih (fun t ht hta r => h t ht (hta.trans ⟨[c], rfl⟩) r)]
      simp

/- ---------------------------------------------------------------------
Correctness of the noStart checks: they rule out a match at a position
for every possible continuation.
--------------------------------------------------------------------- -/

theorem not_pref_append {p t : List Char} (h1 : ¬ t <+: p) (h2 : ¬ p <+: t)
    (r : List Char) : ¬ p <+: t ++ r := by
  intro h
  by_cases hl : p.length ≤ t.length
  · exact h2 (pref_of_append_of_le h hl)
  · exact h1 (append_left_pref_of_le h (by omega))

theorem noStart1_spec {t : List Char} (h : noStart1 t = true) (r : List Char) :
    matcher1 (t ++ r) = none := by
  simp only [noStart1, Bool.and_eq_true, Bool.not_eq_true',
    ← Bool.not_eq_true, List.isPrefixOf_iff_prefix] at h
  rw [matcher1_eq_none]
  exact not_pref_append h.1 h.2 r

theorem noStart2_unfold (t : List Char) :
    noStart2 t =
      if t.isPrefixOf constSp then false
      else if constSp.isPrefixOf t then
        (if (t.drop constSp.length).all isWordChar then false
         else if 3 ≤ ((t.drop constSp.length).takeWhile isWordChar).length ∧
             endsId ((t.drop constSp.length).takeWhile isWordChar) = true then
           !(((t.drop constSp.length).dropWhile isWordChar).isPrefixOf tail2) &&
           !(tail2.isPrefixOf ((t.drop constSp.length).dropWhile isWordChar))
         else true)
      else true := rfl

theorem noStart2_spec {t : List Char} (h : noStart2 t = true) (r : List Char) :
    matcher2 (t ++ r) = none := by
  rw [matcher2_eq_none]
  rw [noStart2_unfold] at h
  by_cases h1 : t.isPrefixOf constSp
  · rw [if_pos h1] at h
    exact Bool.noConfusion h
  · rw [if_neg h1] at h
    by_cases h2 : constSp.isPrefixOf t
    · rw [if_pos h2] at h
      have hts : t = constSp ++ t.drop constSp.length :=
        eq_append_drop_of_pref (List.isPrefixOf_iff_prefix.mp h2)
      by_cases h3 : (t.drop constSp.length).all isWordChar
      · rw [if_pos h3] at h
        exact Bool.noConfusion h
      · rw [if_neg h3] at h
        have hna : (t.drop constSp.length).all isWordChar = false :=
          Bool.eq_false_iff.mpr h3
        have hsplit : t ++ r = constSp ++ (t.drop constSp.length ++ r) := by
          conv_lhs => rw [hts]
          rw [List.append_assoc]
        rw [match2_unfold, hsplit,
          if_pos (List.isPrefixOf_iff_prefix.mpr (List.prefix_append _ _)),
          List.drop_left, takeWhile_append_stop r hna, dropWhile_append_stop r hna]
        by_cases h4 : 3 ≤ ((t.drop constSp.length).takeWhile isWordChar).length ∧
            endsId ((t.drop constSp.length).takeWhile isWordChar) = true
        · rw [if_pos h4] at h
          simp only [Bool.and_eq_true, Bool.not_eq_true',
            ← Bool.not_eq_true, List.isPrefixOf_iff_prefix] at h
          rw [if_neg]
          intro hc
          exact not_pref_append h.1 h.2 r (List.isPrefixOf_iff_prefix.mp hc.2.2)
        · rw [if_neg]
          intro hc
          exact h4 ⟨hc.1, hc.2.1⟩
    · rw [if_neg h2] at h
      rw [match2_unfold, if_neg]
      intro hc
      have hp1 : ¬ t <+: constSp := fun hx => h1 (List.isPrefixOf_iff_prefix.mpr hx)
      have hp2 : ¬ constSp <+: t := fun hx => h2 (List.isPrefixOf_iff_prefix.mpr hx)
      exact not_pref_append hp1 hp2 r (List.isPrefixOf_iff_prefix.mp hc)

theorem noStartBoth_spec {t : List Char} (h : noStartBoth t = true) (r : List Char) :
    matcher1 (t ++ r) = none ∧ matcher2 (t ++ r) = none := by
  rw [noStartBoth, Bool.and_eq_true] at h
  exact ⟨noStart1_spec h.1 r, noStart2_spec h.2 r⟩

theorem tails_safe_noStart {L t : List Char}
    (hall : L.tails.all (fun u => u.isEmpty || noStartBoth u) = true)
    (ht : t ≠ []) (hs : t <:+ L) (r : List Char) :
    matcher1 (t ++ r) = none ∧ matcher2 (t ++ r) = none := by
  have hmem : t ∈ L.tails := (List.mem_tails _ _).mpr hs
  have hone := List.all_eq_true.mp hall _ hmem
  rw [Bool.or_eq_true] at hone
  rcases hone with h | h
  · exact absurd (by simpa using h) ht
  · exact noStartBoth_spec h r

/- ---------------------------------------------------------------------
Concrete safety facts about the literal pieces, checked by evaluation.
--------------------------------------------------------------------- -/

set_option maxRecDepth 100000 in
theorem replacement1_tails_safe :
    replacement1.tails.all (fun u => u.isEmpty || noStartBoth u) = true := by decide

set_option maxRecDepth 100000 in
theorem mid2_tails_safe :
    mid2.tails.all (fun u => u.isEmpty || noStartBoth u) = true := by decide

set_option maxRecDepth 100000 in
theorem post2_tails_safe :
    post2.tails.all (fun u => u.isEmpty || noStartBoth u) = true := by decide

set_option maxRecDepth 100000 in
theorem tail2_tails_safe :
    tail2.tails.all (fun u => u.isEmpty || noStartBoth u) = true := by decide

set_option maxRecDepth 100000 in
theorem constSp_tails_safe :
    constSp.tails.all (fun u => u.isEmpty || u == constSp || noStartBoth u) = true := by
  decide

set_option maxRecDepth 100000 in
theorem pattern1_tails_head :
    pattern1.tails.all (fun u => u.isEmpty || u == pattern1 || u.head? != some 'c') =
      true := by decide

set_option maxRecDepth 100000 in
theorem tail2_tails_not_pref_repl1 :
    tail2.tails.all (fun u => u.isEmpty || !(u.isPrefixOf replacement1)) = true := by
  decide

theorem noStart_constSp_proper {t : List Char} (hs : t <:+ constSp) (ht : t ≠ [])
    (htc : t ≠ constSp) (r : List Char) :
    matcher1 (t ++ r) = none ∧ matcher2 (t ++ r) = none := by
  have hmem : t ∈ constSp.tails := (List.mem_tails _ _).mpr hs
  have hone := List.all_eq_true.mp constSp_tails_safe _ hmem
  simp only [Bool.or_eq_true] at hone
  rcases hone with (h | h) | h
  · exact absurd (by simpa using h) ht
  · exact absurd (by simpa using h) htc
  · exact noStartBoth_spec h r

theorem pattern1_suffix_head {t : List Char} (hs : t <:+ pattern1) (ht : t ≠ [])
    (htp : t ≠ pattern1) : t.head? ≠ some 'c' := by
  have hmem : t ∈ pattern1.tails := (List.mem_tails _ _).mpr hs
  have hone := List.all_eq_true.mp pattern1_tails_head _ hmem
  simp only [Bool.or_eq_true] at hone
  rcases hone with (h | h) | h
  · exact absurd (by simpa using h) ht
  · exact absurd (by simpa using h) htp
  · simpa using h

theorem all_of_suffix {v t : List Char} (hall : v.all isWordChar = true)
    (ht : t <:+ v) : t.all isWordChar = true := by
  apply List.all_eq_true.mpr
  intro x hx
  exact List.all_eq_true.mp hall x (ht.subset hx)

theorem not_pattern1_pref_word {u : List Char} (X : List Char) (hne : u ≠ [])
    (hall : u.all isWordChar = true) : ¬ pattern1 <+: constSp ++ (u ++ X) := by
  intro h
  have hpat : pattern1 = constSp ++ ('\x7b' :: " id \x7d = req.params;".data) := by
    decide
  rw [hpat, pref_append_cancel] at h
  cases u with
  | nil => exact hne rfl
  | cons a u' =>
      rw [List.cons_append] at h
      have hh := head_eq_of_pref h (by simp)
      simp only [List.head?_cons, Option.some.injEq] at hh
      have ha : isWordChar a = true := List.all_eq_true.mp hall a (by simp)
      rw [← hh] at ha
      exact absurd ha (by decide)

/-- The run of word characters stops at the space opening `mid2`. -/
theorem run_stops_at_mid2 (v X : List Char) (hall : v.all isWordChar = true) :
    (v ++ (mid2 ++ X)).takeWhile isWordChar = v ∧
    (v ++ (mid2 ++ X)).dropWhile isWordChar = mid2 ++ X := by
  have h0 : mid2 = ' ' :: "= parseInt(req.params.id);\n    if (isNaN(".data := by
    decide
  have hmid : mid2 ++ X =
      ' ' :: ("= parseInt(req.params.id);\n    if (isNaN(".data ++ X) := by
    rw [h0]; rfl
  constructor
  · rw [takeWhile_append_all _ hall, hmid, List.takeWhile_cons,
        if_neg (by decide : ¬ isWordChar ' ' = true), List.append_nil]
  · rw [dropWhile_append_all _ hall, hmid, List.dropWhile_cons,
        if_neg (by decide : ¬ isWordChar ' ' = true), ← hmid]

/-- No match of either rule can start inside the text consumed by a rule 2
match, at any offset at or after position 1, whatever the continuation.
For matcher 1, position 0 is also excluded. -/
theorem noStart1_in_frag {u : List Char} (hu : GoodVar u) {t : List Char}
    (ht : t ≠ []) (hs : t <:+ pattern2Match u) (r : List Char) :
    matcher1 (t ++ r) = none := by
  obtain ⟨hall, hend, hlen⟩ := hu
  have hune : u ≠ [] := by rintro rfl; simp at hlen
  have hassoc : pattern2Match u = constSp ++ (u ++ tail2) := by
    simp [pattern2Match, List.append_assoc]
  rw [hassoc] at hs
  rcases suffix_append_cases hs with hs1 | ⟨c', hc1, hc2, rfl⟩
  · rcases suffix_append_cases hs1 with hs2 | ⟨u', hu1, hu2, rfl⟩
    · exact (tails_safe_noStart tail2_tails_safe ht hs2 r).1
    · rw [matcher1_eq_none, List.append_assoc]
      exact not_pref_of_wordy _ (by decide) (all_of_suffix hall hu1)
        (endsId_suffix_transfer hend hu1 hu2)
  · by_cases hcc : c' = constSp
    · subst hcc
      rw [matcher1_eq_none]
      intro hcon
      rw [List.append_assoc, List.append_assoc] at hcon
      exact not_pattern1_pref_word (tail2 ++ r) hune hall hcon
    · have := (noStart_constSp_proper hc1 hc2 hcc ((u ++ tail2) ++ r)).1
      rw [← List.append_assoc] at this
      exact this

/-- No match of either rule starts strictly inside the rule 2 replacement
block, nor a rule 1 match at its start, whatever follows the block. -/
theorem noStart_repl2 {v : List Char} (hv : GoodVar v) {t : List Char}
    (ht : t ≠ []) (hs : t <:+ replacement2 v) (r : List Char) :
    matcher1 (t ++ r) = none ∧ matcher2 (t ++ r) = none := by
  obtain ⟨hall, hend, hlen⟩ := hv
  have hvne : v ≠ [] := by rintro rfl; simp at hlen
  have hassoc : replacement2 v = constSp ++ (v ++ (mid2 ++ (v ++ post2))) := by
    simp [replacement2, List.append_assoc]
  rw [hassoc] at hs
  rcases suffix_append_cases hs with hs1 | ⟨c', hc1, hc2, rfl⟩
  · rcases suffix_append_cases hs1 with hs2 | ⟨v1', hv1, hv2, rfl⟩
    · rcases suffix_append_cases hs2 with hs3 | ⟨m', hm1, hm2, rfl⟩
      · rcases suffix_append_cases hs3 with hs4 | ⟨v2', hw1, hw2, rfl⟩
        · exact tails_safe_noStart post2_tails_safe ht hs4 r
        · have hw_all := all_of_suffix hall hw1
          have hw_d := endsId_suffix_transfer hend hw1 hw2
          constructor
          · rw [matcher1_eq_none, List.append_assoc]
            exact not_pref_of_wordy _ (by decide) hw_all hw_d
          · rw [matcher2_eq_none, match2_unfold, if_neg]
            intro hcon
            rw [List.append_assoc] at hcon
            exact not_constSp_pref_of_wordy _ hw_all hw_d
              (List.isPrefixOf_iff_prefix.mp hcon)
      · have := tails_safe_noStart mid2_tails_safe hm2 hm1 ((v ++ post2) ++ r)
        rw [← List.append_assoc] at this
        exact this
    · have hv_all := all_of_suffix hall hv1
      have hv_d := endsId_suffix_transfer hend hv1 hv2
      constructor
      · rw [matcher1_eq_none, List.append_assoc]
        exact not_pref_of_wordy _ (by decide) hv_all hv_d
      · rw [matcher2_eq_none, match2_unfold, if_neg]
        intro hcon
        rw [List.append_assoc] at hcon
        exact not_constSp_pref_of_wordy _ hv_all hv_d
          (List.isPrefixOf_iff_prefix.mp hcon)
  · by_cases hcc : c' = constSp
    · subst hcc
      constructor
      · rw [matcher1_eq_none]
        intro hcon
        rw [List.append_assoc, List.append_assoc] at hcon
        exact not_pattern1_pref_word _ hvne hall hcon
      · rw [matcher2_eq_none, match2_unfold]
        have hshape : (constSp ++ (v ++ (mid2 ++ (v ++ post2)))) ++ r =
            constSp ++ (v ++ (mid2 ++ ((v ++ post2) ++ r))) := by
          simp [List.append_assoc]
        rw [hshape,
          if_pos (List.isPrefixOf_iff_prefix.mpr (List.prefix_append _ _)),
          List.drop_left]
        obtain ⟨htw, hdw⟩ := run_stops_at_mid2 v ((v ++ post2) ++ r) hall
        rw [htw, hdw, if_neg]
        intro hcon
        have h1 : ¬ tail2 <+: mid2 := by decide
        have h2 : ¬ mid2 <+: tail2 := by decide
        exact not_pref_append h2 h1 ((v ++ post2) ++ r)
          (List.isPrefixOf_iff_prefix.mp hcon.2.2)
    · have := noStart_constSp_proper hc1 hc2 hcc ((v ++ (mid2 ++ (v ++ post2))) ++ r)
      rw [← List.append_assoc] at this
      exact this

theorem noStart_repl1 {t : List Char} (ht : t ≠ []) (hs : t <:+ replacement1)
    (r : List Char) :
    matcher1 (t ++ r) = none ∧ matcher2 (t ++ r) = none :=
  tails_safe_noStart replacement1_tails_safe ht hs r

set_option maxRecDepth 100000 in
theorem tail2_tails_head :
    tail2.tails.all (fun u => u.isEmpty || u.head? != some 'c') = true := by decide

set_option maxRecDepth 100000 in
theorem constSp_tails_head :
    constSp.tails.all (fun u => u.isEmpty || u == constSp || u.head? != some 'c') =
      true := by decide

theorem tail2_suffix_head {t : List Char} (hs : t <:+ tail2) (ht : t ≠ []) :
    t.head? ≠ some 'c' := by
  have hmem : t ∈ tail2.tails := (List.mem_tails _ _).mpr hs
  have hone := List.all_eq_true.mp tail2_tails_head _ hmem
  simp only [Bool.or_eq_true] at hone
  rcases hone with h | h
  · exact absurd (by simpa using h) ht
  · simpa using h

theorem constSp_suffix_head {t : List Char} (hs : t <:+ constSp) (ht : t ≠ [])
    (htc : t ≠ constSp) : t.head? ≠ some 'c' := by
  have hmem : t ∈ constSp.tails := (List.mem_tails _ _).mpr hs
  have hone := List.all_eq_true.mp constSp_tails_head _ hmem
  simp only [Bool.or_eq_true] at hone
  rcases hone with (h | h) | h
  · exact absurd (by simpa using h) ht
  · exact absurd (by simpa using h) htc
  · simpa using h

theorem frag_head (u : List Char) : (pattern2Match u).head? = some 'c' := by
  rw [pattern2Match, List.append_assoc, headq_append _ (by decide : constSp ≠ [])]
  decide

theorem repl2_head (v : List Char) : (replacement2 v).head? = some 'c' := by
  rw [replacement2, List.append_assoc, List.append_assoc, List.append_assoc,
    headq_append _ (by decide : constSp ≠ [])]
  decide

/-- A nonempty suffix of the text consumed by a rule 2 match is never a
prefix of the rule 1 replacement block. -/
theorem frag_suffix_not_repl1_pref {v s₁ : List Char} (hv : GoodVar v)
    (hs : s₁ <:+ pattern2Match v) (hne : s₁ ≠ []) (hp : s₁ <+: replacement1) :
    False := by
  obtain ⟨hall, hend, hlen⟩ := hv
  have hassoc : pattern2Match v = constSp ++ (v ++ tail2) := by
    simp [pattern2Match, List.append_assoc]
  rw [hassoc] at hs
  rcases suffix_append_cases hs with hs1 | ⟨c', hc1, hc2, rfl⟩
  · rcases suffix_append_cases hs1 with hs2 | ⟨v', hv1, hv2, rfl⟩
    · have hmem : s₁ ∈ tail2.tails := (List.mem_tails _ _).mpr hs2
      have hone := List.all_eq_true.mp tail2_tails_not_pref_repl1 _ hmem
      simp only [Bool.or_eq_true] at hone
      rcases hone with h | h
      · exact hne (by simpa using h)
      · have hfalse : s₁.isPrefixOf replacement1 = false := by simpa using h
        have htrue := List.isPrefixOf_iff_prefix.mpr hp
        rw [hfalse] at htrue
        exact Bool.noConfusion htrue
    · have hv_all := all_of_suffix hall hv1
      have hv_d := endsId_suffix_transfer hend hv1 hv2
      have hv'p : v' <+: replacement1 := (List.prefix_append v' tail2).trans hp
      have hrepl : replacement1 = constSp ++ replacement1.drop 6 := by decide
      rw [hrepl] at hv'p
      exact not_wordy_pref_of_constSp _ hv_all hv_d hv'p
  · by_cases hcc : c' = constSp
    · subst hcc
      have hrepl : replacement1 = constSp ++ replacement1.drop 6 := by decide
      rw [hrepl, pref_append_cancel] at hp
      have hvp : v <+: replacement1.drop 6 :=
        (List.prefix_append v tail2).trans hp
      have hveq : v = (replacement1.drop 6).take v.length :=
        List.prefix_iff_eq_take.mp hvp
      have h3 : v.take 3 = (replacement1.drop 6).take 3 := by
        rw [hveq, List.take_take, Nat.min_eq_left hlen]
      have hsp : ' ' ∈ v.take 3 := by
        rw [h3]
        decide
      have : ' ' ∈ v := List.take_subset _ _ hsp
      exact absurd (List.all_eq_true.mp hall _ this) (by decide)
    · have hh := head_eq_of_pref hp (by simp [hc2])
      rw [headq_append _ hc2] at hh
      have : replacement1.head? = some 'c' := by decide
      rw [this] at hh
      exact constSp_suffix_head hc1 hc2 hcc hh

/-- Rule 1 pass: every input containing the destructuring idiom produces an
output containing the rule 1 replacement block. -/
theorem rule1_produces_aux :
    ∀ n (x : List Char), x.length ≤ n → pattern1 <:+: x →
      replacement1 <:+: scan matcher1 x := by
  intro n
  induction n with
  | zero =>
      intro x hlen h
      have hx : x = [] := List.length_eq_zero.mp (by omega)
      subst hx
      exact absurd (List.eq_nil_of_infix_nil h) (by decide)
  | succ n ih =>
      intro x hlen h
      cases x with
      | nil => exact absurd (List.eq_nil_of_infix_nil h) (by decide)
      | cons c cs =>
          cases hm : matcher1 (c :: cs) with
          | some p =>
              obtain ⟨r, k⟩ := p
              obtain ⟨hr, hk, hpre⟩ := matcher1_eq_some hm
              subst hr
              rw [scan_cons_some hm]
              exact (List.prefix_append _ _).isInfix
          | none =>
              rw [scan_cons_none hm]
              rcases List.infix_cons_iff.mp h with hpre | hinf
              · exact absurd hpre (matcher1_eq_none.mp hm)
              · refine infix_cons_of_infix c (ih cs ?_ hinf)
                simp only [List.length_cons] at hlen
                omega

theorem rule1_produces {x : List Char} (h : pattern1 <:+: x) :
    replacement1 <:+: scan matcher1 x :=
  rule1_produces_aux x.length x le_rfl h

/-- Rule 2 pass: an occurrence of the rule 1 replacement block survives the
rule 2 pass. -/
theorem rule2_keeps_repl1_aux :
    ∀ n (z : List Char), z.length ≤ n → replacement1 <:+: z →
      replacement1 <:+: scan matcher2 z := by
  intro n
  induction n with
  | zero =>
      intro z hlen h
      have hz : z = [] := List.length_eq_zero.mp (by omega)
      subst hz
      exact absurd (List.eq_nil_of_infix_nil h) (by decide)
  | succ n ih =>
      intro z hlen h
      by_cases hp : replacement1 <+: z
      · have hz : z = replacement1 ++ z.drop replacement1.length :=
          eq_append_drop_of_pref hp
        rw [hz, scan_append_clean _ (fun t htne hts r => (noStart_repl1 htne hts r).2)]
        exact (List.prefix_append _ _).isInfix
      · cases z with
        | nil => exact absurd (List.eq_nil_of_infix_nil h) (by decide)
        | cons c cs =>
            cases hm : matcher2 (c :: cs) with
            | none =>
                rw [scan_cons_none hm]
                rcases List.infix_cons_iff.mp h with hpre | hinf
                · exact absurd hpre hp
                · refine infix_cons_of_infix c (ih cs ?_ hinf)
                  simp only [List.length_cons] at hlen
                  omega
            | some p =>
                obtain ⟨r, k⟩ := p
                obtain ⟨v, hm2, hr, hk, hgv, b, hb⟩ := matcher2_eq_some hm
                subst hr
                rw [scan_eq_of_some hm (by simp)]
                have hdrop : (c :: cs).drop (k + 1) = b := by
                  rw [hb, hk]
                  have harith : 22 + v.length + 1 = (pattern2Match v).length := by
                    rw [pattern2Match_length]
                    omega
                  rw [harith, List.drop_left]
                rw [hdrop]
                rw [hb] at h
                rcases infix_append_cases h with hin | hin |
                  ⟨s₁, s₂, hsplit, hs1ne, hs2ne, hs1, hs2⟩
                · exfalso
                  have hnl : '\n' ∈ replacement1 := by decide
                  have hmem : '\n' ∈ pattern2Match v := hin.subset hnl
                  rw [pattern2Match] at hmem
                  rcases List.mem_append.mp hmem with hmem | hmem
                  · rcases List.mem_append.mp hmem with hmem | hmem
                    · exact absurd hmem (by decide)
                    · exact absurd (List.all_eq_true.mp hgv.1 _ hmem) (by decide)
                  · exact absurd hmem (by decide)
                · have hlenb : b.length ≤ n := by
                    have hlenz : (c :: cs).length =
                        (pattern2Match v).length + b.length := by
                      rw [hb, List.length_append]
                    rw [pattern2Match_length] at hlenz
                    simp only [List.length_cons] at hlen hlenz
                    omega
                  exact infix_append_left _ (ih b hlenb hin)
                · exact absurd (⟨s₂, hsplit.symm⟩ : s₁ <+: replacement1)
                    (fun hx => frag_suffix_not_repl1_pref hgv hs1 hs1ne hx)

theorem rule2_keeps_repl1 {z : List Char} (h : replacement1 <:+: z) :
    replacement1 <:+: scan matcher2 z :=
  rule2_keeps_repl1_aux z.length z le_rfl h

theorem frag_ne_nil (u : List Char) : pattern2Match u ≠ [] := by
  intro h
  have hhd := frag_head u
  rw [h] at hhd
  exact Option.noConfusion hhd

theorem constSp_pref_frag (u : List Char) : constSp <+: pattern2Match u := by
  rw [pattern2Match, List.append_assoc]
  exact List.prefix_append _ _

/-- The literal `const ` is not a prefix of any proper nonempty suffix of
the text consumed by a rule 2 match. -/
theorem constSp_not_pref_inside_frag {v s₁ : List Char} (hv : GoodVar v)
    (hs : s₁ <:+ pattern2Match v) (hne : s₁ ≠ [])
    (hproper : s₁.length < (pattern2Match v).length)
    (hc : constSp <+: s₁) : False := by
  obtain ⟨hall, hend, hlen⟩ := hv
  have hhead : s₁.head? = some 'c' := by
    have hc' := head_eq_of_pref hc (by decide)
    rw [← hc']
    decide
  have hassoc : pattern2Match v = constSp ++ (v ++ tail2) := by
    simp [pattern2Match, List.append_assoc]
  rw [hassoc] at hs
  rcases suffix_append_cases hs with hs1 | ⟨c', hc1, hc2, rfl⟩
  · rcases suffix_append_cases hs1 with hs2 | ⟨v', hv1, hv2, rfl⟩
    · exact tail2_suffix_head hs2 hne hhead
    · exact not_constSp_pref_of_wordy _ (all_of_suffix hall hv1)
        (endsId_suffix_transfer hend hv1 hv2) hc
  · by_cases hcc : c' = constSp
    · subst hcc
      rw [hassoc] at hproper
      simp [List.length_append] at hproper
    · have hch : c'.head? = some 'c' := by
        rw [← headq_append (v ++ tail2) hc2]
        exact hhead
      exact constSp_suffix_head hc1 hc2 hcc hch

/-- If the text `const <u> = req.params.id;` for one word name is a prefix
of the same text for another word name extended to the right, the two
names coincide (only uses that both names are word runs). -/
theorem frag_pref_frag_words {u v : List Char} (hua : u.all isWordChar = true)
    (hva : v.all isWordChar = true)
    (X : List Char) (hp : pattern2Match u <+: pattern2Match v ++ X) : u = v := by
  have h1 : u ++ tail2 <+: v ++ (tail2 ++ X) := by
    have hL : pattern2Match u = constSp ++ (u ++ tail2) := by
      simp [pattern2Match, List.append_assoc]
    have hR : pattern2Match v ++ X = constSp ++ (v ++ (tail2 ++ X)) := by
      simp [pattern2Match, List.append_assoc]
    rw [hL, hR, pref_append_cancel] at hp
    exact hp
  rcases Nat.lt_trichotomy u.length v.length with hlt | heq | hgt
  · exfalso
    have h2 : u ++ [' '] <+: u ++ tail2 := by
      rw [pref_append_cancel]
      decide
    have h3 : u ++ [' '] <+: v ++ (tail2 ++ X) := h2.trans h1
    have h4 : u ++ [' '] <+: v := by
      refine pref_of_append_of_le h3 ?_
      simp only [List.length_append, List.length_cons, List.length_nil]
      omega
    have hsp : ' ' ∈ v := h4.subset (by simp)
    exact absurd (List.all_eq_true.mp hva _ hsp) (by decide)
  · have hu_p : u <+: v ++ (tail2 ++ X) := (List.prefix_append u tail2).trans h1
    have h4 : u <+: v := pref_of_append_of_le hu_p (by omega)
    exact h4.eq_of_length heq
  · exfalso
    have h2 : v ++ [' '] <+: v ++ (tail2 ++ X) := by
      rw [pref_append_cancel]
      exact pref_extend X (by decide : [' '] <+: tail2)
    have h3 : v ++ [' '] <+: u ++ tail2 := by
      refine List.prefix_of_prefix_length_le h2 h1 ?_
      have ht17 : tail2.length = 17 := by decide
      simp only [List.length_append, List.length_cons, List.length_nil, ht17]
      omega
    have h4 : v ++ [' '] <+: u := by
      refine pref_of_append_of_le h3 ?_
      simp only [List.length_append, List.length_cons, List.length_nil]
      omega
    have hsp : ' ' ∈ u := h4.subset (by simp)
    exact absurd (List.all_eq_true.mp hua _ hsp) (by decide)

/-- If one rule 2 match text is a prefix of another one extended to the
right, the two captured groups coincide. -/
theorem frag_pref_frag {u v : List Char} (hu : GoodVar u) (hv : GoodVar v)
    (X : List Char) (hp : pattern2Match u <+: pattern2Match v ++ X) : u = v :=
  frag_pref_frag_words hu.1 hv.1 X hp

/-- Rule 1 pass: an occurrence of a rule 2 match text survives the rule 1
pass (pattern 1 never overlaps it). -/
theorem rule1_keeps_frag_aux :
    ∀ n (x : List Char), x.length ≤ n → ∀ u, GoodVar u →
      pattern2Match u <:+: x → pattern2Match u <:+: scan matcher1 x := by
  intro n
  induction n with
  | zero =>
      intro x hlen u hu h
      have hx : x = [] := List.length_eq_zero.mp (by omega)
      subst hx
      exact absurd (List.eq_nil_of_infix_nil h) (frag_ne_nil u)
  | succ n ih =>
      intro x hlen u hu h
      by_cases hp : pattern2Match u <+: x
      · have hx : x = pattern2Match u ++ x.drop (pattern2Match u).length :=
          eq_append_drop_of_pref hp
        rw [hx, scan_append_clean _ (fun t htne hts r => noStart1_in_frag hu htne hts r)]
        exact (List.prefix_append _ _).isInfix
      · cases x with
        | nil => exact absurd (List.eq_nil_of_infix_nil h) (frag_ne_nil u)
        | cons c cs =>
            cases hm : matcher1 (c :: cs) with
            | none =>
                rw [scan_cons_none hm]
                rcases List.infix_cons_iff.mp h with hpre | hinf
                · exact absurd hpre hp
                · refine infix_cons_of_infix c (ih cs ?_ u hu hinf)
                  simp only [List.length_cons] at hlen
                  omega
            | some p =>
                obtain ⟨r, k⟩ := p
                obtain ⟨hr, hk, hpre⟩ := matcher1_eq_some hm
                subst hr hk
                have hx : (c :: cs) = pattern1 ++ (c :: cs).drop 26 := by
                  have hd := eq_append_drop_of_pref hpre
                  rwa [(by decide : pattern1.length = 26)] at hd
                rw [scan_cons_some hm]
                have hcd : cs.drop 25 = (c :: cs).drop 26 := rfl
                rw [hcd]
                rw [hx] at h
                rcases infix_append_cases h with hin | hin |
                  ⟨s₁, s₂, hsplit, hs1ne, hs2ne, hs1, hs2⟩
                · exfalso
                  have hle := hin.length_le
                  rw [pattern2Match_length, (by decide : pattern1.length = 26)] at hle
                  obtain ⟨hua, hue, hul⟩ := hu
                  have hu3 : u.length = 3 := by omega
                  have heq : pattern2Match u = pattern1 := hin.eq_of_length (by
                    rw [pattern2Match_length, hu3]
                    decide)
                  have hpat : pattern1 =
                      constSp ++ ('\x7b' :: " id \x7d = req.params;".data) := by decide
                  have hfr : pattern2Match u = constSp ++ (u ++ tail2) := by
                    simp [pattern2Match, List.append_assoc]
                  rw [hfr, hpat] at heq
                  have heq2 : u ++ tail2 = '\x7b' :: " id \x7d = req.params;".data :=
                    List.append_cancel_left heq
                  cases u with
                  | nil => simp at hu3
                  | cons a u' =>
                      rw [List.cons_append] at heq2
                      injection heq2 with ha _
                      have haw : isWordChar a = true :=
                        List.all_eq_true.mp hua a (by simp)
                      rw [ha] at haw
                      exact absurd haw (by decide)
                · have hlenr : ((c :: cs).drop 26).length ≤ n := by
                    have hxlen := congrArg List.length hx
                    rw [List.length_append, (by decide : pattern1.length = 26)] at hxlen
                    simp only [List.length_cons] at hlen hxlen
                    omega
                  exact infix_append_left _ (ih _ hlenr u hu hin)
                · exfalso
                  have hs1p : s₁ <+: pattern2Match u := ⟨s₂, hsplit.symm⟩
                  by_cases hwhole : s₁ = pattern1
                  · subst hwhole
                    obtain ⟨hua, hue, hul⟩ := hu
                    have hune : u ≠ [] := by rintro rfl; simp at hul
                    have hfr : pattern2Match u = constSp ++ (u ++ tail2) := by
                      simp [pattern2Match, List.append_assoc]
                    rw [hfr] at hs1p
                    exact not_pattern1_pref_word tail2 hune hua hs1p
                  · have hh := head_eq_of_pref hs1p hs1ne
                    rw [frag_head] at hh
                    exact pattern1_suffix_head hs1 hs1ne hwhole hh

theorem rule1_keeps_frag {x u : List Char} (hu : GoodVar u)
    (h : pattern2Match u <:+: x) : pattern2Match u <:+: scan matcher1 x :=
  rule1_keeps_frag_aux x.length x le_rfl u hu h

/-- Rule 2 pass: an occurrence of a rule 2 match text is rewritten into the
corresponding replacement block. -/
theorem rule2_rewrites_frag_aux :
    ∀ n (z : List Char), z.length ≤ n → ∀ u, GoodVar u →
      pattern2Match u <:+: z → replacement2 u <:+: scan matcher2 z := by
  intro n
  induction n with
  | zero =>
      intro z hlen u hu h
      have hz : z = [] := List.length_eq_zero.mp (by omega)
      subst hz
      exact absurd (List.eq_nil_of_infix_nil h) (frag_ne_nil u)
  | succ n ih =>
      intro z hlen u hu h
      by_cases hp : pattern2Match u <+: z
      · have hz : z = pattern2Match u ++ z.drop (pattern2Match u).length :=
          eq_append_drop_of_pref hp
        have hm : matcher2 z = some (replacement2 u, 22 + u.length) := by
          rw [hz]
          exact matcher2_at hu _
        rw [scan_eq_of_some hm (by
          intro hznil
          rw [hznil] at hz
          exact frag_ne_nil u (by
            have := congrArg List.length hz
            simp only [List.length_nil, List.length_append] at this
            exact List.length_eq_zero.mp (by omega)))]
        exact (List.prefix_append _ _).isInfix
      · cases z with
        | nil => exact absurd (List.eq_nil_of_infix_nil h) (frag_ne_nil u)
        | cons c cs =>
            cases hm : matcher2 (c :: cs) with
            | none =>
                rw [scan_cons_none hm]
                rcases List.infix_cons_iff.mp h with hpre | hinf
                · exact absurd hpre hp
                · refine infix_cons_of_infix c (ih cs ?_ u hu hinf)
                  simp only [List.length_cons] at hlen
                  omega
            | some p =>
                obtain ⟨r, k⟩ := p
                obtain ⟨v, hm2, hr, hk, hgv, b, hb⟩ := matcher2_eq_some hm
                subst hr
                rw [scan_eq_of_some hm (by simp)]
                have hdrop : (c :: cs).drop (k + 1) = b := by
                  rw [hb, hk]
                  have harith : 22 + v.length + 1 = (pattern2Match v).length := by
                    rw [pattern2Match_length]
                    omega
                  rw [harith, List.drop_left]
                rw [hdrop]
                rw [hb] at h hp
                rcases infix_append_cases h with hin | hin |
                  ⟨s₁, s₂, hsplit, hs1ne, hs2ne, hs1, hs2⟩
                · obtain ⟨s, t', hst⟩ := hin
                  rcases eq_or_ne s [] with rfl | hsne
                  · exfalso
                    apply hp
                    rw [List.nil_append] at hst
                    exact pref_extend b (⟨t', hst⟩ : pattern2Match u <+: pattern2Match v)
                  · exfalso
                    have hsuf : pattern2Match u ++ t' <:+ pattern2Match v :=
                      ⟨s, by rw [← List.append_assoc]; exact hst⟩
                    have hcp : constSp <+: pattern2Match u ++ t' :=
                      pref_extend _ (constSp_pref_frag u)
                    refine constSp_not_pref_inside_frag hgv hsuf ?_ ?_ hcp
                    · intro hnil
                      exact frag_ne_nil u (by
                        have := congrArg List.length hnil
                        simp only [List.length_append, List.length_nil] at this
                        exact List.length_eq_zero.mp (by omega))
                    · have hstl := congrArg List.length hst
                      simp only [List.length_append] at hstl
                      have hsne' : 1 ≤ s.length := by
                        cases s with
                        | nil => exact absurd rfl hsne
                        | cons a q => simp
                      simp only [List.length_append]
                      omega
                · have hlenb : b.length ≤ n := by
                    have hlenz : (c :: cs).length =
                        (pattern2Match v).length + b.length := by
                      rw [hb, List.length_append]
                    rw [pattern2Match_length] at hlenz
                    simp only [List.length_cons] at hlen hlenz
                    omega
                  exact infix_append_left _ (ih b hlenb u hu hin)
                · exfalso
                  have hs1p : s₁ <+: pattern2Match u := ⟨s₂, hsplit.symm⟩
                  by_cases hwhole : s₁ = pattern2Match v
                  · subst hwhole
                    have hvu : v = u := by
                      refine frag_pref_frag hgv hu [] ?_
                      rw [List.append_nil]
                      exact hs1p
                    subst hvu
                    have hl := congrArg List.length hsplit
                    simp only [List.length_append] at hl
                    have : 1 ≤ s₂.length := by
                      cases s₂ with
                      | nil => exact absurd rfl hs2ne
                      | cons a q => simp
                    omega
                  · by_cases h6 : 6 ≤ s₁.length
                    · have hcp : constSp <+: s₁ := by
                        refine List.prefix_of_prefix_length_le
                          (constSp_pref_frag u) hs1p ?_
                        have : constSp.length = 6 := by decide
                        omega
                      refine constSp_not_pref_inside_frag hgv hs1 hs1ne ?_ hcp
                      have hle := hs1.length_le
                      rcases Nat.lt_or_ge s₁.length (pattern2Match v).length with hlt | hge
                      · exact hlt
                      · exfalso
                        apply hwhole
                        have heq : s₁.length = (pattern2Match v).length := by omega
                        have hd := suffix_eq_drop hs1
                        rw [heq, Nat.sub_self, List.drop_zero] at hd
                        exact hd
                    · have htail_suf : tail2 <:+ pattern2Match v :=
                        ⟨constSp ++ v, rfl⟩
                      have hs1t : s₁ <:+ tail2 := by
                        refine suffix_of_suffix_le hs1 htail_suf ?_
                        have : tail2.length = 17 := by decide
                        omega
                      have hh := head_eq_of_pref hs1p hs1ne
                      rw [frag_head] at hh
                      exact tail2_suffix_head hs1t hs1ne hh

theorem rule2_rewrites_frag {z u : List Char} (hu : GoodVar u)
    (h : pattern2Match u <:+: z) : replacement2 u <:+: scan matcher2 z :=
  rule2_rewrites_frag_aux z.length z le_rfl u hu h

/- ---------------------------------------------------------------------
Names not of the w+Id shape: the assignment `const <v> = req.params.id;`
is matched by neither rule at any of its positions and survives both
passes inside any input.
--------------------------------------------------------------------- -/

theorem eqsign_cons :
    "= req.params.id;".data = '=' :: " req.params.id;".data := by decide

/-- If the literal `const ` is a prefix of a word run followed by the
rule 2 literal tail, the word run is forced to be exactly the five
letters `const` (the sixth character, a space, must come from the tail). -/
theorem constSp_pref_word_tail2 {w : List Char} (r : List Char)
    (hw : w.all isWordChar = true)
    (hcp : constSp <+: w ++ (tail2 ++ r)) : w = "const".data := by
  have hlen6 : constSp.length = 6 := by decide
  have h5 : w.length ≤ 5 := by
    by_contra h6
    have h1 : constSp = (w ++ (tail2 ++ r)).take constSp.length :=
      List.prefix_iff_eq_take.mp hcp
    rw [hlen6, List.take_append_eq_append_take] at h1
    have h0 : 6 - w.length = 0 := by omega
    rw [h0, List.take_zero, List.append_nil] at h1
    have hsp : ' ' ∈ constSp := by decide
    rw [h1] at hsp
    have hw' : ' ' ∈ w := List.take_subset 6 w hsp
    exact absurd (List.all_eq_true.mp hw _ hw') (by decide)
  have hwp : w <+: constSp := by
    refine List.prefix_of_prefix_length_le (List.prefix_append _ _) hcp ?_
    omega
  have hdrop : constSp.drop w.length <+: tail2 ++ r := by
    have hc2 : constSp = w ++ constSp.drop w.length := eq_append_drop_of_pref hwp
    rw [hc2, pref_append_cancel] at hcp
    exact hcp
  have hne : constSp.drop w.length ≠ [] := by
    intro h0
    have hl := congrArg List.length h0
    rw [List.length_drop, hlen6] at hl
    simp only [List.length_nil] at hl
    omega
  have hh := head_eq_of_pref hdrop hne
  have ht : (tail2 ++ r).head? = some ' ' := by
    rw [headq_append r (by decide : tail2 ≠ [])]
    decide
  rw [ht] at hh
  have hk : w.length = 0 ∨ w.length = 1 ∨ w.length = 2 ∨ w.length = 3 ∨
      w.length = 4 ∨ w.length = 5 := by omega
  have h50 : w.length = 5 := by
    rcases hk with h0 | h0 | h0 | h0 | h0 | h0 <;> rw [h0] at hh
    · exact absurd hh (by decide)
    · exact absurd hh (by decide)
    · exact absurd hh (by decide)
    · exact absurd hh (by decide)
    · exact absurd hh (by decide)
    · exact h0
  have hwt : w = constSp.take w.length := List.prefix_iff_eq_take.mp hwp
  rw [h50] at hwt
  rw [hwt]
  decide

/-- No match of either rule can start at a word run followed by the rule 2
literal tail, whatever the continuation: even if the run ends in the five
letters `const`, the `=` of the tail stops both patterns. -/
theorem noStart_word_tail2 {w : List Char} (hw : w.all isWordChar = true)
    (r : List Char) :
    matcher1 (w ++ (tail2 ++ r)) = none ∧ matcher2 (w ++ (tail2 ++ r)) = none := by
  by_cases hcp : constSp <+: w ++ (tail2 ++ r)
  · have hwc : w = "const".data := constSp_pref_word_tail2 r hw hcp
    subst hwc
    have h2 : constSp = "const".data ++ [' '] := by decide
    have hs : "const".data ++ (tail2 ++ r) =
        constSp ++ ("= req.params.id;".data ++ r) := by
      rw [h2, tail2_cons, List.append_assoc, List.cons_append]
      rfl
    constructor
    · rw [matcher1_eq_none, hs]
      intro hcon
      have hpat : pattern1 =
          constSp ++ ('\x7b' :: " id \x7d = req.params;".data) := by decide
      rw [hpat, pref_append_cancel] at hcon
      have hh := head_eq_of_pref hcon (by simp)
      rw [headq_append r (by decide : "= req.params.id;".data ≠ [])] at hh
      exact absurd hh (by decide)
    · rw [matcher2_eq_none, hs, match2_unfold,
        if_pos (List.isPrefixOf_iff_prefix.mpr (List.prefix_append _ _)),
        List.drop_left]
      have htw : ("= req.params.id;".data ++ r).takeWhile isWordChar = [] := by
        rw [eqsign_cons, List.cons_append, List.takeWhile_cons,
            if_neg (by decide : ¬ isWordChar '=' = true)]
      rw [htw, if_neg]
      intro hcon
      have h3 := hcon.1
      simp only [List.length_nil] at h3
      omega
  · constructor
    · rw [matcher1_eq_none]
      intro hcon
      exact hcp ((by decide : constSp <+: pattern1).trans hcon)
    · rw [matcher2_eq_none, match2_unfold, if_neg]
      intro hcon
      exact hcp (List.isPrefixOf_iff_prefix.mp hcon)

/-- Neither rule matches at the start of `const <v> = req.params.id;` when
`v` is not of the `\w+Id` shape, whatever the continuation. -/
theorem matchersBad_at {v : List Char} (hv : BadVar v) (r : List Char) :
    matcher1 (pattern2Match v ++ r) = none ∧
      matcher2 (pattern2Match v ++ r) = none := by
  obtain ⟨hne, hall, hbad⟩ := hv
  have hshape : pattern2Match v ++ r = constSp ++ (v ++ (tail2 ++ r)) := by
    simp [pattern2Match, List.append_assoc]
  constructor
  · rw [matcher1_eq_none, hshape]
    exact not_pattern1_pref_word (tail2 ++ r) hne hall
  · rw [matcher2_eq_none, hshape, match2_unfold,
      if_pos (List.isPrefixOf_iff_prefix.mpr (List.prefix_append _ _)),
      List.drop_left]
    have hcons : tail2 ++ r = ' ' :: ("= req.params.id;".data ++ r) := by
      rw [tail2_cons]
      rfl
    have htw : (v ++ (tail2 ++ r)).takeWhile isWordChar = v := by
      rw [takeWhile_append_all _ hall, hcons, List.takeWhile_cons,
          if_neg (by decide : ¬ isWordChar ' ' = true), List.append_nil]
    rw [htw, if_neg]
    intro hcon
    exact hbad ⟨hcon.2.1, hcon.1⟩

/-- No match of either rule can start anywhere inside
`const <v> = req.params.id;` for a name `v` not of the `\w+Id` shape,
including at its first character, whatever the continuation. -/
theorem noStartBad_in_frag {v : List Char} (hv : BadVar v) {t : List Char}
    (ht : t ≠ []) (hs : t <:+ pattern2Match v) (r : List Char) :
    matcher1 (t ++ r) = none ∧ matcher2 (t ++ r) = none := by
  have hassoc : pattern2Match v = constSp ++ (v ++ tail2) := by
    simp [pattern2Match, List.append_assoc]
  rw [hassoc] at hs
  rcases suffix_append_cases hs with hs1 | ⟨c', hc1, hc2, rfl⟩
  · rcases suffix_append_cases hs1 with hs2 | ⟨v', hv1, hv2, rfl⟩
    · exact tails_safe_noStart tail2_tails_safe ht hs2 r
    · have hall' : v'.all isWordChar = true := all_of_suffix hv.2.1 hv1
      rw [List.append_assoc]
      exact noStart_word_tail2 hall' r
  · by_cases hcc : c' = constSp
    · subst hcc
      rw [← hassoc]
      exact matchersBad_at hv r
    · have hres := noStart_constSp_proper hc1 hc2 hcc ((v ++ tail2) ++ r)
      rw [← List.append_assoc] at hres
      exact hres

/-- The text `const <v> = req.params.id;` never occurs inside pattern 1. -/
theorem badfrag_not_infix_pattern1 {v : List Char} (hne : v ≠ [])
    (hall : v.all isWordChar = true) : ¬ pattern2Match v <:+: pattern1 := by
  rintro ⟨s, t', hst⟩
  have hsuf : pattern2Match v ++ t' <:+ pattern1 :=
    ⟨s, by rw [← List.append_assoc]; exact hst⟩
  have hne2 : pattern2Match v ++ t' ≠ [] := by
    intro h0
    exact frag_ne_nil v (List.append_eq_nil.mp h0).1
  have hhd : (pattern2Match v ++ t').head? = some 'c' := by
    rw [headq_append t' (frag_ne_nil v)]
    exact frag_head v
  by_cases hwhole : pattern2Match v ++ t' = pattern1
  · have hp : pattern2Match v <+: pattern1 := ⟨t', hwhole⟩
    have hfr : pattern2Match v = constSp ++ (v ++ tail2) := by
      simp [pattern2Match, List.append_assoc]
    have hpat : pattern1 =
        constSp ++ ('\x7b' :: " id \x7d = req.params;".data) := by decide
    rw [hfr, hpat, pref_append_cancel] at hp
    cases v with
    | nil => exact hne rfl
    | cons a q =>
        rw [List.cons_append] at hp
        have hh := head_eq_of_pref hp (by simp)
        simp only [List.head?_cons, Option.some.injEq] at hh
        have ha : isWordChar a = true := List.all_eq_true.mp hall a (by simp)
        rw [hh] at ha
        exact absurd ha (by decide)
  · exact pattern1_suffix_head hsuf hne2 hwhole hhd

/-- Rule 1 pass: an occurrence of `const <v> = req.params.id;` with `v`
not of the `\w+Id` shape survives the rule 1 pass (pattern 1 never
overlaps it). -/
theorem rule1_keeps_badfrag_aux :
    ∀ n (x : List Char), x.length ≤ n → ∀ v, BadVar v →
      pattern2Match v <:+: x → pattern2Match v <:+: scan matcher1 x := by
  intro n
  induction n with
  | zero =>
      intro x hlen v hv h
      have hx : x = [] := List.length_eq_zero.mp (by omega)
      subst hx
      exact absurd (List.eq_nil_of_infix_nil h) (frag_ne_nil v)
  | succ n ih =>
      intro x hlen v hv h
      by_cases hp : pattern2Match v <+: x
      · have hx : x = pattern2Match v ++ x.drop (pattern2Match v).length :=
          eq_append_drop_of_pref hp
        rw [hx, scan_append_clean _
          (fun t htne hts r => (noStartBad_in_frag hv htne hts r).1)]
        exact (List.prefix_append _ _).isInfix
      · cases x with
        | nil => exact absurd (List.eq_nil_of_infix_nil h) (frag_ne_nil v)
        | cons c cs =>
            cases hm : matcher1 (c :: cs) with
            | none =>
                rw [scan_cons_none hm]
                rcases List.infix_cons_iff.mp h with hpre | hinf
                · exact absurd hpre hp
                · refine infix_cons_of_infix c (ih cs ?_ v hv hinf)
                  simp only [List.length_cons] at hlen
                  omega
            | some p =>
                obtain ⟨r, k⟩ := p
                obtain ⟨hr, hk, hpre⟩ := matcher1_eq_some hm
                subst hr hk
                have hx : (c :: cs) = pattern1 ++ (c :: cs).drop 26 := by
                  have hd := eq_append_drop_of_pref hpre
                  rwa [(by decide : pattern1.length = 26)] at hd
                rw [scan_cons_some hm]
                have hcd : cs.drop 25 = (c :: cs).drop 26 := rfl
                rw [hcd]
                rw [hx] at h
                rcases infix_append_cases h with hin | hin |
                  ⟨s₁, s₂, hsplit, hs1ne, hs2ne, hs1, hs2⟩
                · exact absurd hin (badfrag_not_infix_pattern1 hv.1 hv.2.1)
                · have hlenr : ((c :: cs).drop 26).length ≤ n := by
                    have hxlen := congrArg List.length hx
                    rw [List.length_append,
                      (by decide : pattern1.length = 26)] at hxlen
                    simp only [List.length_cons] at hlen hxlen
                    omega
                  exact infix_append_left _ (ih _ hlenr v hv hin)
                · exfalso
                  have hs1p : s₁ <+: pattern2Match v := ⟨s₂, hsplit.symm⟩
                  by_cases hwhole : s₁ = pattern1
                  · subst hwhole
                    have hfr : pattern2Match v = constSp ++ (v ++ tail2) := by
                      simp [pattern2Match, List.append_assoc]
                    rw [hfr] at hs1p
                    exact not_pattern1_pref_word tail2 hv.1 hv.2.1 hs1p
                  · have hh := head_eq_of_pref hs1p hs1ne
                    rw [frag_head] at hh
                    exact pattern1_suffix_head hs1 hs1ne hwhole hh

theorem rule1_keeps_badfrag {x v : List Char} (hv : BadVar v)
    (h : pattern2Match v <:+: x) : pattern2Match v <:+: scan matcher1 x :=
  rule1_keeps_badfrag_aux x.length x le_rfl v hv h

/-- Rule 2 pass: an occurrence of `const <v> = req.params.id;` with `v`
not of the `\w+Id` shape survives the rule 2 pass (no rule 2 match can
overlap it). -/
theorem rule2_keeps_badfrag_aux :
    ∀ n (z : List Char), z.length ≤ n → ∀ v, BadVar v →
      pattern2Match v <:+: z → pattern2Match v <:+: scan matcher2 z := by
  intro n
  induction n with
  | zero =>
      intro z hlen v hv h
      have hz : z = [] := List.length_eq_zero.mp (by omega)
      subst hz
      exact absurd (List.eq_nil_of_infix_nil h) (frag_ne_nil v)
  | succ n ih =>
      intro z hlen v hv h
      by_cases hp : pattern2Match v <+: z
      · have hz : z = pattern2Match v ++ z.drop (pattern2Match v).length :=
          eq_append_drop_of_pref hp
        rw [hz, scan_append_clean _
          (fun t htne hts r => (noStartBad_in_frag hv htne hts r).2)]
        exact (List.prefix_append _ _).isInfix
      · cases z with
        | nil => exact absurd (List.eq_nil_of_infix_nil h) (frag_ne_nil v)
        | cons c cs =>
            cases hm : matcher2 (c :: cs) with
            | none =>
                rw [scan_cons_none hm]
                rcases List.infix_cons_iff.mp h with hpre | hinf
                · exact absurd hpre hp
                · refine infix_cons_of_infix c (ih cs ?_ v hv hinf)
                  simp only [List.length_cons] at hlen
                  omega
            | some p =>
                obtain ⟨r, k⟩ := p
                obtain ⟨w, hm2, hr, hk, hgw, b, hb⟩ := matcher2_eq_some hm
                subst hr
                rw [scan_eq_of_some hm (by simp)]
                have hdrop : (c :: cs).drop (k + 1) = b := by
                  rw [hb, hk]
                  have harith : 22 + w.length + 1 = (pattern2Match w).length := by
                    rw [pattern2Match_length]
                    omega
                  rw [harith, List.drop_left]
                rw [hdrop]
                rw [hb] at h hp
                rcases infix_append_cases h with hin | hin |
                  ⟨s₁, s₂, hsplit, hs1ne, hs2ne, hs1, hs2⟩
                · obtain ⟨s, t', hst⟩ := hin
                  rcases eq_or_ne s [] with rfl | hsne
                  · exfalso
                    apply hp
                    rw [List.nil_append] at hst
                    exact pref_extend b
                      (⟨t', hst⟩ : pattern2Match v <+: pattern2Match w)
                  · exfalso
                    have hsuf : pattern2Match v ++ t' <:+ pattern2Match w :=
                      ⟨s, by rw [← List.append_assoc]; exact hst⟩
                    have hcp : constSp <+: pattern2Match v ++ t' :=
                      pref_extend _ (constSp_pref_frag v)
                    refine constSp_not_pref_inside_frag hgw hsuf ?_ ?_ hcp
                    · intro hnil
                      exact frag_ne_nil v (by
                        have hl := congrArg List.length hnil
                        simp only [List.length_append, List.length_nil] at hl
                        exact List.length_eq_zero.mp (by omega))
                    · have hstl := congrArg List.length hst
                      simp only [List.length_append] at hstl
                      have hsne' : 1 ≤ s.length := by
                        cases s with
                        | nil => exact absurd rfl hsne
                        | cons a q => simp
                      simp only [List.length_append]
                      omega
                · have hlenb : b.length ≤ n := by
                    have hlenz : (c :: cs).length =
                        (pattern2Match w).length + b.length := by
                      rw [hb, List.length_append]
                    rw [pattern2Match_length] at hlenz
                    simp only [List.length_cons] at hlen hlenz
                    omega
                  exact infix_append_left _ (ih b hlenb v hv hin)
                · exfalso
                  have hs1p : s₁ <+: pattern2Match v := ⟨s₂, hsplit.symm⟩
                  by_cases hwhole : s₁ = pattern2Match w
                  · subst hwhole
                    have hwv : w = v := by
                      refine frag_pref_frag_words hgw.1 hv.2.1 [] ?_
                      rw [List.append_nil]
                      exact hs1p
                    subst hwv
                    exact hv.2.2 ⟨hgw.2.1, hgw.2.2⟩
                  · by_cases h6 : 6 ≤ s₁.length
                    · have hcp : constSp <+: s₁ := by
                        refine List.prefix_of_prefix_length_le
                          (constSp_pref_frag v) hs1p ?_
                        have hc6 : constSp.length = 6 := by decide
                        omega
                      refine constSp_not_pref_inside_frag hgw hs1 hs1ne ?_ hcp
                      have hle := hs1.length_le
                      rcases Nat.lt_or_ge s₁.length (pattern2Match w).length
                        with hlt | hge
                      · exact hlt
                      · exfalso
                        apply hwhole
                        have heq : s₁.length = (pattern2Match w).length := by omega
                        have hd := suffix_eq_drop hs1
                        rw [heq, Nat.sub_self, List.drop_zero] at hd
                        exact hd
                    · have htail_suf : tail2 <:+ pattern2Match w :=
                        ⟨constSp ++ w, rfl⟩
                      have hs1t : s₁ <:+ tail2 := by
                        refine suffix_of_suffix_le hs1 htail_suf ?_
                        have ht17 : tail2.length = 17 := by decide
                        omega
                      have hh := head_eq_of_pref hs1p hs1ne
                      rw [frag_head] at hh
                      exact tail2_suffix_head hs1t hs1ne hh

theorem rule2_keeps_badfrag {z v : List Char} (hv : BadVar v)
    (h : pattern2Match v <:+: z) : pattern2Match v <:+: scan matcher2 z :=
  rule2_keeps_badfrag_aux z.length z le_rfl v hv h

/-- The bare text `const <v> = req.params.id;` with `v` not of the `\w+Id`
shape is a fixed point of fix_id_parsing. -/
theorem fix_id_parsing_badfrag {v : List Char} (hv : BadVar v) :
    fix_id_parsing (pattern2Match v) = pattern2Match v := by
  have h1 : scan matcher1 (pattern2Match v) = pattern2Match v := by
    apply scan_eq_self
    intro i hi
    have hts : (pattern2Match v).drop i <:+ pattern2Match v :=
      List.drop_suffix i _
    have htne : (pattern2Match v).drop i ≠ [] := by
      intro h0
      have hl := congrArg List.length h0
      rw [List.length_drop] at hl
      simp only [List.length_nil] at hl
      omega
    have hres := (noStartBad_in_frag hv htne hts []).1
    rwa [List.append_nil] at hres
  have h2 : scan matcher2 (pattern2Match v) = pattern2Match v := by
    apply scan_eq_self
    intro i hi
    have hts : (pattern2Match v).drop i <:+ pattern2Match v :=
      List.drop_suffix i _
    have htne : (pattern2Match v).drop i ≠ [] := by
      intro h0
      have hl := congrArg List.length h0
      rw [List.length_drop] at hl
      simp only [List.length_nil] at hl
      omega
    have hres := (noStartBad_in_frag hv htne hts []).2
    rwa [List.append_nil] at hres
  show scan matcher2 (scan matcher1 (pattern2Match v)) = pattern2Match v
  rw [h1, h2]

/- ---------------------------------------------------------------------
Idempotence machinery: outputs of the two passes contain no further
match of either pattern.
--------------------------------------------------------------------- -/

theorem head_mem_of_headq {l : List Char} {a : Char} (h : l.head? = some a) :
    a ∈ l := by
  cases l with
  | nil => exact Option.noConfusion h
  | cons x q =>
      simp only [List.head?_cons, Option.some.injEq] at h
      rw [← h]
      exact List.mem_cons_self x q

theorem repl2_ne_nil (v : List Char) : replacement2 v ≠ [] := by
  intro h
  have hhd := repl2_head v
  rw [h] at hhd
  exact Option.noConfusion hhd

theorem endsId_append_const5 (w : List Char) :
    endsId (w ++ ['c', 'o', 'n', 's', 't']) = false := by
  unfold endsId
  show List.isSuffixOf "Id".data (w ++ ['c', 'o', 'n', 's', 't']) = false
  unfold List.isSuffixOf
  rw [show (w ++ ['c', 'o', 'n', 's', 't']).reverse =
    't' :: 's' :: 'n' :: 'o' :: 'c' :: w.reverse from by simp]
  rfl

/-- Output of the rule 1 pass never contains pattern 1. -/
theorem rule1_no_pattern1_aux :
    ∀ n (x : List Char), x.length ≤ n → ¬ pattern1 <:+: scan matcher1 x := by
  intro n
  induction n with
  | zero =>
      intro x hlen h
      have hx : x = [] := List.length_eq_zero.mp (by omega)
      subst hx
      rw [scan_nil] at h
      exact absurd (List.eq_nil_of_infix_nil h) (by decide)
  | succ n ih =>
      intro x hlen h
      cases fm : firstMatch matcher1 x with
      | none =>
          rw [scan_of_firstMatch_none fm] at h
          obtain ⟨pre, suf, hx⟩ := h
          have hxlen := congrArg List.length hx
          simp only [List.length_append, (by decide : pattern1.length = 26)] at hxlen
          have hlt : pre.length < x.length := by omega
          have hnone := firstMatch_none_spec fm pre.length hlt
          have hdrop : x.drop pre.length = pattern1 ++ suf := by
            rw [← hx, List.append_assoc, List.drop_left]
          rw [hdrop, matcher1_eq_none] at hnone
          exact hnone (List.prefix_append _ _)
      | some p =>
          obtain ⟨j, r, k⟩ := p
          obtain ⟨hjlt, hmj, hbefore⟩ := firstMatch_some_spec fm
          obtain ⟨hr, hk, hpre⟩ := matcher1_eq_some hmj
          subst hr hk
          rw [scan_of_firstMatch_some fm, List.append_assoc] at h
          rcases infix_append_cases h with hin | hin |
            ⟨s₁, s₂, hsplit, hs1ne, hs2ne, hs1, hs2⟩
          · obtain ⟨pre, suf, hx⟩ := hin
            have hxlen := congrArg List.length hx
            simp only [List.length_append,
              (by decide : pattern1.length = 26)] at hxlen
            have htakelen : (x.take j).length = j := by
              rw [List.length_take]
              omega
            have hpos : pre.length < j := by omega
            have hpp : pattern1 <+: x.drop pre.length := by
              have hsplit2 : x.drop pre.length =
                  (x.take j).drop pre.length ++ x.drop j := by
                conv_lhs => rw [← List.take_append_drop j x]
                rw [List.drop_append_eq_append_drop]
                have h0 : pre.length - (x.take j).length = 0 := by omega
                rw [h0, List.drop_zero]
              have hdd : (x.take j).drop pre.length = pattern1 ++ suf := by
                rw [← hx, List.append_assoc, List.drop_left]
              rw [hsplit2, hdd, List.append_assoc]
              exact List.prefix_append _ _
            have hnone := hbefore pre.length hpos
            rw [matcher1_eq_none] at hnone
            exact hnone hpp
          · rcases infix_append_cases hin with hin2 | hin2 |
              ⟨s₁, s₂, hsplit, hs1ne, hs2ne, hs1, hs2⟩
            · obtain ⟨pre, suf, hrx⟩ := hin2
              have ht : pattern1 ++ suf <:+ replacement1 :=
                ⟨pre, by rw [← List.append_assoc]; exact hrx⟩
              have hne : pattern1 ++ suf ≠ [] := by
                intro hc
                have := congrArg List.length hc
                simp only [List.length_append,
                  (by decide : pattern1.length = 26), List.length_nil] at this
                omega
              have hns := (noStart_repl1 hne ht []).1
              rw [List.append_nil, matcher1_eq_none] at hns
              exact hns (List.prefix_append _ _)
            · refine ih (x.drop (j + 25 + 1)) ?_ hin2
              rw [List.length_drop]
              omega
            · have hns := (noStart_repl1 hs1ne hs1 s₂).1
              rw [matcher1_eq_none] at hns
              exact hns ⟨[], by simp [← hsplit]⟩
          · have hh := head_eq_of_pref hs2 hs2ne
            rw [headq_append _ (by decide : replacement1 ≠ [])] at hh
            have hch : s₂.head? = some 'c' := by
              rw [hh]
              decide
            have hs2suf : s₂ <:+ pattern1 := ⟨s₁, hsplit.symm⟩
            have hs2prop : s₂ ≠ pattern1 := by
              intro hcon
              have hl := congrArg List.length hsplit
              rw [hcon] at hl
              simp only [List.length_append] at hl
              cases s₁ with
              | nil => exact hs1ne rfl
              | cons a q => simp only [List.length_cons] at hl; omega
            exact pattern1_suffix_head hs2suf hs2ne hs2prop hch

theorem rule1_no_pattern1 (x : List Char) : ¬ pattern1 <:+: scan matcher1 x :=
  rule1_no_pattern1_aux x.length x le_rfl

/-- The rule 2 pass never introduces an occurrence of pattern 1. -/
theorem rule2_no_new_pattern1_aux :
    ∀ n (z : List Char), z.length ≤ n → ¬ pattern1 <:+: z →
      ¬ pattern1 <:+: scan matcher2 z := by
  intro n
  induction n with
  | zero =>
      intro z hlen hz h
      have hznil : z = [] := List.length_eq_zero.mp (by omega)
      subst hznil
      rw [scan_nil] at h
      exact hz h
  | succ n ih =>
      intro z hlen hz h
      cases fm : firstMatch matcher2 z with
      | none =>
          rw [scan_of_firstMatch_none fm] at h
          exact hz h
      | some p =>
          obtain ⟨j, r, k⟩ := p
          obtain ⟨hjlt, hmj, hbefore⟩ := firstMatch_some_spec fm
          obtain ⟨v, hm2, hr, hk, hgv, b, hb⟩ := matcher2_eq_some hmj
          subst hr hk
          rw [scan_of_firstMatch_some fm, List.append_assoc] at h
          rcases infix_append_cases h with hin | hin |
            ⟨s₁, s₂, hsplit, hs1ne, hs2ne, hs1, hs2⟩
          · exact hz (infix_of_take j hin)
          · rcases infix_append_cases hin with hin2 | hin2 |
              ⟨s₁, s₂, hsplit, hs1ne, hs2ne, hs1, hs2⟩
            · obtain ⟨pre, suf, hrx⟩ := hin2
              have ht : pattern1 ++ suf <:+ replacement2 v :=
                ⟨pre, by rw [← List.append_assoc]; exact hrx⟩
              have hne : pattern1 ++ suf ≠ [] := by
                intro hc
                have := congrArg List.length hc
                simp only [List.length_append,
                  (by decide : pattern1.length = 26), List.length_nil] at this
                omega
              have hns := (noStart_repl2 hgv hne ht []).1
              rw [List.append_nil, matcher1_eq_none] at hns
              exact hns (List.prefix_append _ _)
            · refine ih (z.drop (j + (22 + v.length) + 1)) ?_ ?_ hin2
              · rw [List.length_drop]
                omega
              · intro hc
                exact hz (infix_of_drop _ hc)
            · have hns := (noStart_repl2 hgv hs1ne hs1 s₂).1
              rw [matcher1_eq_none] at hns
              exact hns ⟨[], by simp [← hsplit]⟩
          · have hh := head_eq_of_pref hs2 hs2ne
            rw [headq_append _ (repl2_ne_nil v)] at hh
            have hch : s₂.head? = some 'c' := by
              rw [hh]
              exact repl2_head v
            have hs2suf : s₂ <:+ pattern1 := ⟨s₁, hsplit.symm⟩
            have hs2prop : s₂ ≠ pattern1 := by
              intro hcon
              have hl := congrArg List.length hsplit
              rw [hcon] at hl
              simp only [List.length_append] at hl
              cases s₁ with
              | nil => exact hs1ne rfl
              | cons a q => simp only [List.length_cons] at hl; omega
            exact pattern1_suffix_head hs2suf hs2ne hs2prop hch

theorem rule2_no_new_pattern1 {z : List Char} (hz : ¬ pattern1 <:+: z) :
    ¬ pattern1 <:+: scan matcher2 z :=
  rule2_no_new_pattern1_aux z.length z le_rfl hz

/-- Replacing the text after a position by a rule 2 replacement block keeps
the matcher failing at that position: if pattern 2 did not match at a
position whose continuation began with `const `, it still does not match
when that continuation is replaced by a rule 2 block (which also begins
with `const `) followed by anything. -/
theorem matcher2_block_after {a' Z : List Char} (ha : a' ≠ [])
    (hZ : ∃ q, Z = constSp ++ q)
    (hnone : matcher2 (a' ++ Z) = none) (v X : List Char) :
    matcher2 (a' ++ (replacement2 v ++ X)) = none := by
  obtain ⟨q, rfl⟩ := hZ
  rw [matcher2_eq_none] at hnone ⊢
  have hYc : replacement2 v ++ X =
      constSp ++ (v ++ mid2 ++ v ++ post2 ++ X) := by
    rw [replacement2]
    simp [List.append_assoc]
  rw [match2_unfold]
  by_cases hp : constSp.isPrefixOf (a' ++ (replacement2 v ++ X))
  case neg => rw [if_neg hp]
  case pos =>
    rw [if_pos hp]
    by_cases h6 : 6 ≤ a'.length
    case neg =>
      exfalso
      have hpp := List.isPrefixOf_iff_prefix.mp hp
      have h1 : constSp = (a' ++ (replacement2 v ++ X)).take constSp.length :=
        List.prefix_iff_eq_take.mp hpp
      rw [(by decide : constSp.length = 6), List.take_append_eq_append_take] at h1
      have ha6 : a'.take 6 = a' := List.take_of_length_le (by omega)
      rw [ha6] at h1
      have hYt : (replacement2 v ++ X).take (6 - a'.length) =
          constSp.take (6 - a'.length) := by
        rw [hYc, List.take_append_eq_append_take]
        have h0 : (6 - a'.length) - constSp.length = 0 := by
          have hc6 : constSp.length = 6 := by decide
          omega
        rw [h0, List.take_zero, List.append_nil]
      rw [hYt] at h1
      have h2 := congrArg (List.drop a'.length) h1
      rw [List.drop_left] at h2
      have hn1 : 1 ≤ a'.length := by
        cases a' with
        | nil => exact absurd rfl ha
        | cons x q' => simp
      have hn5 : a'.length ≤ 5 := by omega
      set m := a'.length with hm
      interval_cases m <;> exact absurd h2 (by decide)
    case pos =>
      have hpp := List.isPrefixOf_iff_prefix.mp hp
      have ht6 : a'.take 6 = constSp := by
        have h1 : constSp = (a' ++ (replacement2 v ++ X)).take constSp.length :=
          List.prefix_iff_eq_take.mp hpp
        rw [(by decide : constSp.length = 6), List.take_append_eq_append_take] at h1
        have h0 : 6 - a'.length = 0 := by omega
        rw [h0, List.take_zero, List.append_nil] at h1
        exact h1.symm
      have hdropgen : ∀ W : List Char,
          (a' ++ W).drop constSp.length = a'.drop 6 ++ W := by
        intro W
        rw [(by decide : constSp.length = 6), List.drop_append_eq_append_drop]
        have h0 : 6 - a'.length = 0 := by omega
        rw [h0, List.drop_zero]
      by_cases hall : (a'.drop 6).all isWordChar
      case pos =>
        rw [hdropgen]
        have htw : (a'.drop 6 ++ (replacement2 v ++ X)).takeWhile isWordChar =
            a'.drop 6 ++ ['c', 'o', 'n', 's', 't'] := by
          rw [takeWhile_append_all _ hall, hYc, takeWhile_constSp]
        rw [if_neg]
        intro hcon
        obtain ⟨hc1, hc2, hc3⟩ := hcon
        rw [htw, endsId_append_const5] at hc2
        exact Bool.noConfusion hc2
      case neg =>
        have hna : (a'.drop 6).all isWordChar = false := Bool.eq_false_iff.mpr hall
        have hpZ : constSp.isPrefixOf (a' ++ (constSp ++ q)) = true := by
          apply List.isPrefixOf_iff_prefix.mpr
          rw [← ht6]
          exact ( List.take_prefix 6 a').trans (List.prefix_append _ _)
        rw [match2_unfold, if_pos hpZ, hdropgen,
          takeWhile_append_stop _ hna, dropWhile_append_stop _ hna] at hnone
        rw [hdropgen, takeWhile_append_stop _ hna, dropWhile_append_stop _ hna]
        have ht''ne : (a'.drop 6).dropWhile isWordChar ≠ [] :=
          dropWhile_ne_nil_of_not_all hna
        rw [if_neg]
        intro hcon
        obtain ⟨hc1, hc2, hc3⟩ := hcon
        have hc3' := List.isPrefixOf_iff_prefix.mp hc3
        by_cases h17 : 17 ≤ ((a'.drop 6).dropWhile isWordChar).length
        · have htp : tail2 <+: (a'.drop 6).dropWhile isWordChar := by
            refine pref_of_append_of_le hc3' ?_
            have ht17 : tail2.length = 17 := by decide
            omega
          rw [if_pos ⟨hc1, hc2,
            List.isPrefixOf_iff_prefix.mpr (pref_extend _ htp)⟩] at hnone
          exact Option.noConfusion hnone
        · have ht''p : (a'.drop 6).dropWhile isWordChar <+: tail2 := by
            refine append_left_pref_of_le hc3' ?_
            have ht17 : tail2.length = 17 := by decide
            omega
          have hsplit2 : tail2.drop ((a'.drop 6).dropWhile isWordChar).length <+:
              replacement2 v ++ X := by
            have h1 : tail2 = (a'.drop 6).dropWhile isWordChar ++
                tail2.drop ((a'.drop 6).dropWhile isWordChar).length :=
              eq_append_drop_of_pref ht''p
            rw [h1] at hc3'
            exact pref_append_cancel.mp hc3'
          have hdne : tail2.drop ((a'.drop 6).dropWhile isWordChar).length ≠ [] := by
            intro hnil
            have hln := congrArg List.length hnil
            rw [List.length_drop, (by decide : tail2.length = 17)] at hln
            simp only [List.length_nil] at hln
            omega
          have hh := head_eq_of_pref hsplit2 hdne
          rw [headq_append _ (repl2_ne_nil v), repl2_head] at hh
          have hcm : 'c' ∈ tail2.drop ((a'.drop 6).dropWhile isWordChar).length :=
            head_mem_of_headq hh
          exact absurd (List.drop_subset _ _ hcm) (by decide)

/-- Output of the rule 2 pass never admits a pattern 2 match at any
suffix. -/
theorem rule2_output_clean_aux :
    ∀ n (z : List Char), z.length ≤ n →
      ∀ t, t <:+ scan matcher2 z → matcher2 t = none := by
  intro n
  induction n with
  | zero =>
      intro z hlen t ht
      have hznil : z = [] := List.length_eq_zero.mp (by omega)
      subst hznil
      rw [scan_nil] at ht
      rw [List.suffix_nil.mp ht]
      exact matcher2_nil
  | succ n ih =>
      intro z hlen t ht
      cases fm : firstMatch matcher2 z with
      | none =>
          rw [scan_of_firstMatch_none fm] at ht
          rcases eq_or_ne t [] with rfl | htne
          · exact matcher2_nil
          · have hd := suffix_eq_drop ht
            have h1 : 1 ≤ t.length := by
              cases t with
              | nil => exact absurd rfl htne
              | cons a q => simp
            have hlt : z.length - t.length < z.length := by
              have := ht.length_le
              omega
            rw [hd]
            exact firstMatch_none_spec fm _ hlt
      | some p =>
          obtain ⟨j, r, k⟩ := p
          obtain ⟨hjlt, hmj, hbefore⟩ := firstMatch_some_spec fm
          obtain ⟨v, hm2, hr, hk, hgv, b, hb⟩ := matcher2_eq_some hmj
          subst hr hk
          rw [scan_of_firstMatch_some fm, List.append_assoc] at ht
          rcases suffix_append_cases ht with ht1 | ⟨a', ha1, ha2, rfl⟩
          · rcases suffix_append_cases ht1 with ht2 | ⟨b', hb1, hb2, rfl⟩
            · refine ih (z.drop (j + (22 + v.length) + 1)) ?_ t ht2
              rw [List.length_drop]
              omega
            · exact (noStart_repl2 hgv hb2 hb1 _).2
          · have htakelen : (z.take j).length = j := by
              rw [List.length_take]
              omega
            have hd := suffix_eq_drop ha1
            have h1 : 1 ≤ a'.length := by
              cases a' with
              | nil => exact absurd rfl ha2
              | cons x q' => simp
            set i := (z.take j).length - a'.length with hi
            have hilt : i < j := by
              have := ha1.length_le
              omega
            have hzdrop : z.drop i = a' ++ (pattern2Match v ++ b) := by
              conv_lhs => rw [← List.take_append_drop j z]
              rw [List.drop_append_eq_append_drop]
              have h0 : i - (z.take j).length = 0 := by omega
              rw [h0, List.drop_zero, ← hd, hb]
            have hnone := hbefore _ hilt
            rw [hzdrop] at hnone
            refine matcher2_block_after ha2 ?_ hnone v _
            refine ⟨v ++ tail2 ++ b, ?_⟩
            simp [pattern2Match, List.append_assoc]

theorem rule2_output_clean {z t : List Char} (ht : t <:+ scan matcher2 z) :
    matcher2 t = none :=
  rule2_output_clean_aux z.length z le_rfl t ht

/- ---------------------------------------------------------------------
The driver loop: frame properties of the model file system.
--------------------------------------------------------------------- -/

theorem readFile_writeFile_ne {fs : List (String × List Char)} {p q : String}
    (hne : p ≠ q) (c : List Char) :
    readFile (writeFile fs q c) p = readFile fs p := by
  unfold readFile writeFile
  induction fs with
  | nil => rfl
  | cons e fs ih =>
      simp only [List.map_cons]
      by_cases hq : (e.1 == q) = true
      · rw [if_pos hq]
        by_cases hp : (e.1 == p) = true
        · exact absurd ((beq_iff_eq.mp hp).symm.trans (beq_iff_eq.mp hq)) hne
        · have hf1 : List.find? (fun x => x.1 == p)
              ((e.1, c) :: List.map
                (fun x => if (x.1 == q) = true then (x.1, c) else x) fs) =
              List.find? (fun x => x.1 == p)
                (List.map (fun x => if (x.1 == q) = true then (x.1, c) else x) fs) :=
            List.find?_cons_of_neg _ (by simpa using hp)
          have hf2 : List.find? (fun x => x.1 == p) (e :: fs) =
              List.find? (fun x => x.1 == p) fs :=
            List.find?_cons_of_neg _ (by simpa using hp)
          rw [hf1, hf2]
          exact ih
      · rw [if_neg hq]
        by_cases hp : (e.1 == p) = true
        · have hf1 : List.find? (fun x => x.1 == p)
              (e :: List.map
                (fun x => if (x.1 == q) = true then (x.1, c) else x) fs) =
              some e :=
            List.find?_cons_of_pos _ hp
          have hf2 : List.find? (fun x => x.1 == p) (e :: fs) = some e :=
            List.find?_cons_of_pos _ hp
          rw [hf1, hf2]
        · have hf1 : List.find? (fun x => x.1 == p)
              (e :: List.map
                (fun x => if (x.1 == q) = true then (x.1, c) else x) fs) =
              List.find? (fun x => x.1 == p)
                (List.map (fun x => if (x.1 == q) = true then (x.1, c) else x) fs) :=
            List.find?_cons_of_neg _ (by simpa using hp)
          have hf2 : List.find? (fun x => x.1 == p) (e :: fs) =
              List.find? (fun x => x.1 == p) fs :=
            List.find?_cons_of_neg _ (by simpa using hp)
          rw [hf1, hf2]
          exact ih

theorem processFile_keeps {st : List (String × List Char) × List String}
    {p : String} {c : List Char} (q : String)
    (hfix : fix_id_parsing c = c)
    (hInv : readFile st.1 p = some c ∧ p ∉ st.2) :
    readFile (processFile st q).1 p = some c ∧ p ∉ (processFile st q).2 := by
  unfold processFile
  by_cases hpq : q = p
  · subst hpq
    rw [hInv.1]
    simp only [hfix]
    rw [if_neg (not_not_intro rfl)]
    exact hInv
  · cases hr : readFile st.1 q with
    | none => exact hInv
    | some cq =>
        by_cases hne : fix_id_parsing cq ≠ cq
        · simp only [if_pos hne]
          constructor
          · rw [readFile_writeFile_ne (fun h => hpq h.symm) _]
            exact hInv.1
          · simp only [List.mem_append, List.mem_singleton]
            rintro (hc | hc)
            · exact hInv.2 hc
            · exact hpq hc.symm
        · simp only [if_neg hne]
          exact hInv

theorem foldl_keeps_file (qs : List String)
    (st : List (String × List Char) × List String) {p : String} {c : List Char}
    (hfix : fix_id_parsing c = c)
    (hInv : readFile st.1 p = some c ∧ p ∉ st.2) :
    readFile (qs.foldl processFile st).1 p = some c ∧
      p ∉ (qs.foldl processFile st).2 := by
  induction qs generalizing st with
  | nil => exact hInv
  | cons q qs ih =>
      rw [List.foldl_cons]
      exact ih _ (processFile_keeps q hfix hInv)

theorem writeFile_fst (fs : List (String × List Char)) (q : String)
    (c : List Char) :
    (writeFile fs q c).map Prod.fst = fs.map Prod.fst := by
  unfold writeFile
  induction fs with
  | nil => rfl
  | cons e fs ih =>
      simp only [List.map_cons, ih]
      congr 1
      by_cases hq : e.1 == q
      · rw [if_pos hq]
      · rw [if_neg hq]

theorem mem_writeFile_ne {fs : List (String × List Char)}
    {e : String × List Char} (he : e ∈ fs) {q : String} (hne : e.1 ≠ q)
    (c : List Char) : e ∈ writeFile fs q c := by
  unfold writeFile
  have hid : (if (e.1 == q) = true then (e.1, c) else e) = e := by
    rw [if_neg (by simp [hne])]
  have h2 : (if (e.1 == q) = true then (e.1, c) else e) ∈
      List.map (fun x => if (x.1 == q) = true then (x.1, c) else x) fs :=
    List.mem_map_of_mem _ he
  rw [hid] at h2
  exact h2

theorem processFile_inv9 {fs : List (String × List Char)}
    {st : List (String × List Char) × List String} {q : String}
    (hq : isRouteTs q = true)
    (h1 : st.1.map Prod.fst = fs.map Prod.fst)
    (h2 : ∀ e ∈ fs, isRouteTs e.1 = false → e ∈ st.1) :
    (processFile st q).1.map Prod.fst = fs.map Prod.fst ∧
      ∀ e ∈ fs, isRouteTs e.1 = false → e ∈ (processFile st q).1 := by
  unfold processFile
  cases hr : readFile st.1 q with
  | none => exact ⟨h1, h2⟩
  | some cq =>
      by_cases hne : fix_id_parsing cq ≠ cq
      · simp only [if_pos hne]
        constructor
        · rw [writeFile_fst]
          exact h1
        · intro e he hroute
          refine mem_writeFile_ne (h2 e he hroute) ?_ _
          intro hcon
          rw [hcon, hq] at hroute
          exact Bool.noConfusion hroute
      · simp only [if_neg hne]
        exact ⟨h1, h2⟩

theorem foldl_inv9 {fs : List (String × List Char)} (qs : List String)
    (hqs : ∀ q ∈ qs, isRouteTs q = true)
    (st : List (String × List Char) × List String)
    (h1 : st.1.map Prod.fst = fs.map Prod.fst)
    (h2 : ∀ e ∈ fs, isRouteTs e.1 = false → e ∈ st.1) :
    (qs.foldl processFile st).1.map Prod.fst = fs.map Prod.fst ∧
      ∀ e ∈ fs, isRouteTs e.1 = false → e ∈ (qs.foldl processFile st).1 := by
  induction qs generalizing st with
  | nil => exact ⟨h1, h2⟩
  | cons q qs ih =>
      rw [List.foldl_cons]
      obtain ⟨g1, g2⟩ := processFile_inv9 (hqs q (by simp)) h1 h2
      exact ih (fun q' hq' => hqs q' (by simp [hq'])) _ g1 g2

theorem globRoutes_route {fs : List (String × List Char)} {q : String}
    (h : q ∈ globRoutes fs) : isRouteTs q = true := by
  unfold globRoutes at h
  obtain ⟨e, he, rfl⟩ := List.mem_map.mp h
  exact (List.mem_filter.mp he).2

/- ---------------------------------------------------------------------
The exception-aware model agrees with the plain model and never fails.
--------------------------------------------------------------------- -/

theorem matcher1E_eq (s : List Char) : matcher1E s = Except.ok (matcher1 s) := rfl

theorem matcher2E_eq (s : List Char) : matcher2E s = Except.ok (matcher2 s) := by
  unfold matcher2E groups2 replacement2E matcher2
  cases h : match2 s <;> simp [h]

theorem scanE_nil (mE : List Char → Except String (Option (List Char × Nat))) :
    scanE mE [] = Except.ok [] := by
  rw [scanE]

theorem scanE_eq_aux (m : List Char → Option (List Char × Nat))
    (mE : List Char → Except String (Option (List Char × Nat)))
    (hm : ∀ s, mE s = Except.ok (m s)) :
    ∀ n (s : List Char), s.length ≤ n → scanE mE s = Except.ok (scan m s) := by
  intro n
  induction n with
  | zero =>
      intro s hlen
      have hs : s = [] := List.length_eq_zero.mp (by omega)
      subst hs
      rw [scanE_nil, scan_nil]
  | succ n ih =>
      intro s hlen
      cases s with
      | nil => rw [scanE_nil, scan_nil]
      | cons c cs =>
          cases hmc : m (c :: cs) with
          | some p =>
              obtain ⟨r, k⟩ := p
              rw [scan_cons_some hmc, scanE, hm, hmc]
              show (scanE mE (cs.drop k)).map (fun w => r ++ w) =
                Except.ok (r ++ scan m (cs.drop k))
              rw [ih (cs.drop k) (by
                rw [List.length_drop]
                simp only [List.length_cons] at hlen
                omega)]
              rfl
          | none =>
              rw [scan_cons_none hmc, scanE, hm, hmc]
              show (scanE mE cs).map (fun w => c :: w) =
                Except.ok (c :: scan m cs)
              rw [ih cs (by simp only [List.length_cons] at hlen; omega)]
              rfl

theorem scanE_eq (m : List Char → Option (List Char × Nat))
    (mE : List Char → Except String (Option (List Char × Nat)))
    (hm : ∀ s, mE s = Except.ok (m s)) (s : List Char) :
    scanE mE s = Except.ok (scan m s) :=
  scanE_eq_aux m mE hm s.length s le_rfl

/- ---------------------------------------------------------------------
The claims.
--------------------------------------------------------------------- -/

/-- Claim C1: every input string containing an occurrence of exactly
`const { id } = req.params;` is transformed by fix_id_parsing into an
output containing `const id = parseInt(req.params.id);` followed by the
`if (isNaN(id))` guard returning status 400 with the JSON body
`{ success: false, error: 'Invalid ID' }` (the text `replacement1` is
exactly that assignment followed by that guard). -/
theorem claim1 (x : List Char) (h : pattern1 <:+: x) :
    replacement1 <:+: fix_id_parsing x := by
  show replacement1 <:+: scan matcher2 (scan matcher1 x)
  exact rule2_keeps_repl1 (rule1_produces h)

theorem claim1_witness :
    pattern1 <:+: pattern1 ∧ replacement1 <:+: fix_id_parsing pattern1 :=
  ⟨List.infix_refl _, claim1 pattern1 (List.infix_refl _)⟩

/-- Claim C2: every input string containing `const <word>Id = req.params.id;`
(a word-character name of length at least three ending in `Id`, such as
`userId`) is transformed by fix_id_parsing into an output containing
`const <word>Id = parseInt(req.params.id);` followed by the
`if (isNaN(<word>Id))` guard returning the same 400 JSON shape, with the
captured name appearing in both the assignment and the guard (the text
`replacement2 v` is exactly that, with `v` substituted at both spots). -/
theorem claim2 (x v : List Char) (hv : GoodVar v)
    (h : pattern2Match v <:+: x) : replacement2 v <:+: fix_id_parsing x := by
  show replacement2 v <:+: scan matcher2 (scan matcher1 x)
  exact rule2_rewrites_frag hv (rule1_keeps_frag hv h)

theorem claim2_witness :
    GoodVar "userId".data ∧
      replacement2 "userId".data <:+:
        fix_id_parsing (pattern2Match "userId".data) :=
  ⟨by decide, claim2 _ _ (by decide) (List.infix_refl _)⟩

/-- Claim C3: fix_id_parsing is idempotent; applying it twice yields the
same result as applying it once, because the rewritten text contains no
further occurrence of either source pattern (not even spanning a
replacement boundary). -/
theorem claim3 (x : List Char) :
    fix_id_parsing (fix_id_parsing x) = fix_id_parsing x := by
  have hno1 : ¬ pattern1 <:+: fix_id_parsing x :=
    rule2_no_new_pattern1 (rule1_no_pattern1 x)
  have h1 : scan matcher1 (fix_id_parsing x) = fix_id_parsing x := by
    apply scan_eq_self
    intro i hi
    rw [matcher1_eq_none]
    intro hc
    exact hno1 (infix_of_drop i hc.isInfix)
  have h2 : scan matcher2 (fix_id_parsing x) = fix_id_parsing x := by
    apply scan_eq_self
    intro i hi
    exact rule2_output_clean (z := scan matcher1 x)
      (List.drop_suffix i _)
  show scan matcher2 (scan matcher1 (fix_id_parsing x)) = fix_id_parsing x
  rw [h1, h2]

/-- Claim C4: an input containing no occurrence of pattern 1 and no
position where pattern 2 matches is returned unchanged. -/
theorem claim4 (x : List Char) (h1 : ¬ pattern1 <:+: x)
    (h2 : x.tails.all (fun t => (match2 t).isNone) = true) :
    fix_id_parsing x = x := by
  have hs1 : scan matcher1 x = x := by
    apply scan_eq_self
    intro i hi
    rw [matcher1_eq_none]
    intro hc
    exact h1 (infix_of_drop i hc.isInfix)
  have hs2 : scan matcher2 x = x := by
    apply scan_eq_self
    intro i hi
    rw [matcher2_eq_none]
    have hmem : x.drop i ∈ x.tails :=
      (List.mem_tails _ _).mpr (List.drop_suffix i x)
    exact Option.isNone_iff_eq_none.mp (List.all_eq_true.mp h2 _ hmem)
  show scan matcher2 (scan matcher1 x) = x
  rw [hs1, hs2]

theorem claim4_witness :
    (¬ pattern1 <:+: "export default router;".data) ∧
      fix_id_parsing "export default router;".data =
        "export default router;".data := by
  refine ⟨by decide, claim4 _ (by decide) (by decide)⟩

/-- Claim C5: an input containing both a rule 1 fragment and a rule 2
fragment has both rewritten by the single fix_id_parsing application. -/
theorem claim5 (x v : List Char) (hv : GoodVar v) (h1 : pattern1 <:+: x)
    (h2 : pattern2Match v <:+: x) :
    replacement1 <:+: fix_id_parsing x ∧ replacement2 v <:+: fix_id_parsing x := by
  constructor
  · show replacement1 <:+: scan matcher2 (scan matcher1 x)
    exact rule2_keeps_repl1 (rule1_produces h1)
  · show replacement2 v <:+: scan matcher2 (scan matcher1 x)
    exact rule2_rewrites_frag hv (rule1_keeps_frag hv h2)

theorem claim5_witness :
    GoodVar "userId".data ∧
      replacement1 <:+:
        fix_id_parsing (pattern1 ++ '\n' :: pattern2Match "userId".data) ∧
      replacement2 "userId".data <:+:
        fix_id_parsing (pattern1 ++ '\n' :: pattern2Match "userId".data) := by
  have hsuf : pattern2Match "userId".data <:+
      pattern1 ++ '\n' :: pattern2Match "userId".data :=
    ⟨pattern1 ++ ['\n'], by simp⟩
  have h := claim5 (pattern1 ++ '\n' :: pattern2Match "userId".data)
    "userId".data (by decide)
    ((List.prefix_append _ _).isInfix) hsuf.isInfix
  exact ⟨by decide, h.1, h.2⟩

/-- Claim C6: a file whose content is unchanged by fix_id_parsing is never
written by the driver loop, and its on-disk content is unchanged after the
whole run; a write happens only for files whose transformed content
differs. -/
theorem claim6 (fs : List (String × List Char)) (p : String) (c : List Char)
    (hread : readFile fs p = some c) (hfix : fix_id_parsing c = c) :
    readFile (runScript fs).1 p = some c ∧ p ∉ (runScript fs).2 := by
  unfold runScript
  exact foldl_keeps_file (globRoutes fs) (fs, []) hfix ⟨hread, by simp⟩

theorem claim6_witness :
    readFile [("src/routes/user.ts", "export default router;".data)]
        "src/routes/user.ts" = some "export default router;".data ∧
      fix_id_parsing "export default router;".data =
        "export default router;".data ∧
      readFile (runScript
          [("src/routes/user.ts", "export default router;".data)]).1
        "src/routes/user.ts" = some "export default router;".data ∧
      "src/routes/user.ts" ∉ (runScript
          [("src/routes/user.ts", "export default router;".data)]).2 := by
  have h := claim6 [("src/routes/user.ts", "export default router;".data)]
    "src/routes/user.ts" "export default router;".data (by decide) (by decide)
  exact ⟨by decide, by decide, h.1, h.2⟩

/-- Claim C7: fix_id_parsing is the sequential composition of the two
rules in fixed order: first the rule 1 pass over the whole input, then the
rule 2 pass over that intermediate result.  With the two passes defined
separately as `rule1` and `rule2`, the equality holds definitionally. -/
theorem claim7 (x : List Char) : fix_id_parsing x = rule2 (rule1 x) := rfl

/-- Claim C8: fix_id_parsing never raises: the exception-aware model, in
which the group lookup of the replacement callback may fail, always
returns `ok` of the plain result, on every input.  Being a Lean function,
the result also depends only on the input. -/
theorem claim8 (x : List Char) :
    fix_id_parsingE x = Except.ok (fix_id_parsing x) := by
  unfold fix_id_parsingE
  rw [scanE_eq matcher1 matcher1E matcher1E_eq x]
  show (match scanE matcher2E (scan matcher1 x) with
    | Except.error e => Except.error e
    | Except.ok c => Except.ok c) = Except.ok (fix_id_parsing x)
  rw [scanE_eq matcher2 matcher2E matcher2E_eq (scan matcher1 x)]
  rfl

/-- Claim C9: a run of the driver only overwrites route files in place:
the list of paths on disk is unchanged (no file created, none deleted, no
directory created), and every entry whose path is outside the
`src/routes/*.ts` glob is untouched. -/
theorem claim9 (fs : List (String × List Char)) :
    ((runScript fs).1).map Prod.fst = fs.map Prod.fst ∧
      ∀ e ∈ fs, isRouteTs e.1 = false → e ∈ (runScript fs).1 := by
  unfold runScript
  exact foldl_inv9 (globRoutes fs) (fun q hq => globRoutes_route hq) (fs, [])
    rfl (fun e he _ => he)

theorem claim9_witness :
    ((runScript [("src/routes/a.ts", pattern1), ("README.md", "hi".data)]).1).map
        Prod.fst =
      [("src/routes/a.ts", pattern1), ("README.md", "hi".data)].map Prod.fst ∧
      ("README.md", "hi".data) ∈
        (runScript [("src/routes/a.ts", pattern1), ("README.md", "hi".data)]).1 := by
  have h := claim9 [("src/routes/a.ts", pattern1), ("README.md", "hi".data)]
  exact ⟨h.1, h.2 _ (by simp) (by decide)⟩

/-- Claim C10: for every input string and every variable name not of the
`\w+Id` shape — a nonempty word-character name that does not end in the
literal suffix `Id` with at least one preceding word character, in
particular the plain lowercase `id` — the non-destructured assignment
`const <name> = req.params.id;` is matched by neither rule (no match of
either matcher can start at it, whatever text follows), the bare
assignment text is a fixed point of fix_id_parsing, and every occurrence
of it in the input is left unchanged by fix_id_parsing. -/
theorem claim10 (x v : List Char) (hv : BadVar v)
    (h : pattern2Match v <:+: x) :
    (∀ r, matcher1 (pattern2Match v ++ r) = none ∧
        matcher2 (pattern2Match v ++ r) = none) ∧
      fix_id_parsing (pattern2Match v) = pattern2Match v ∧
      pattern2Match v <:+: fix_id_parsing x := by
  refine ⟨fun r => matchersBad_at hv r, fix_id_parsing_badfrag hv, ?_⟩
  show pattern2Match v <:+: scan matcher2 (scan matcher1 x)
  exact rule2_keeps_badfrag hv (rule1_keeps_badfrag hv h)

set_option maxRecDepth 100000 in
theorem claim10_witness :
    BadVar "id".data ∧
      pattern2Match "id".data <:+:
        "app.use(router);\nconst id = req.params.id;\n".data ∧
      ((∀ r, matcher1 (pattern2Match "id".data ++ r) = none ∧
          matcher2 (pattern2Match "id".data ++ r) = none) ∧
        fix_id_parsing (pattern2Match "id".data) = pattern2Match "id".data ∧
        pattern2Match "id".data <:+:
          fix_id_parsing "app.use(router);\nconst id = req.params.id;\n".data) :=
  ⟨by decide, by decide,
    claim10 "app.use(router);\nconst id = req.params.id;\n".data "id".data
      (by decide) (by decide)⟩
